import Mathlib

/-!
Verification development for the `go-tui` repository's tree-sitter binding
artifact (`src/editor/tree-sitter-tui/bindings/swift/TreeSitterTui/tui.h`)
and for the incremental table-driven parsing engine that its specification
describes behind the opaque `TSLanguage` handle.

Part 1 embeds the C header itself: its declarations and its include guard,
transcribed from the source file.

Part 2 models the parsing engine.  The engine's code is not present in the
repository (the header only declares the opaque handle), so every engine
definition is modelled from the specification's words, as marked in its
doc comment.
-/

namespace TuiSpec

/-! ## Part 1: embedding of the C header `tui.h` -/

/-- A C declaration form, as can appear at the top level of a header.
The constructors cover what the artifact could in principle contain:
an opaque struct typedef (`typedef struct S S;`), a struct definition
with fields, a function declaration (prototype), a function definition
with a body (represented by its statement count), and an object/variable
declaration.  `funDecl` records whether the return type is const-qualified,
the base return type name, the pointer depth of the return type, the
function name, and the parameter type list. -/
inductive CDecl where
  | typedefOpaque (structName : String)
  | structDef (name : String) (fields : List (String × String))
  | funDecl (constRet : Bool) (retBase : String) (retPtrDepth : Nat)
      (name : String) (params : List String)
  | funDef (name : String) (bodyStmts : Nat)
  | varDecl (name : String) (type : String)
deriving DecidableEq

/-- A C header file: its include-guard token and the list of top-level
declarations its body introduces. -/
structure CHeader where
  guard : String
  decls : List CDecl
deriving DecidableEq

/-- Transcription of `tui.h`: include guard `TREE_SITTER_TUI_H_`; the
opaque forward declaration `typedef struct TSLanguage TSLanguage;`; and the
single prototype `const TSLanguage *tree_sitter_tui(void);`.  The
`__cplusplus` linkage block affects name mangling only and introduces no
declarations of its own. -/
def tui_h : CHeader :=
  { guard := "TREE_SITTER_TUI_H_"
  , decls :=
      [ CDecl.typedefOpaque "TSLanguage"
      , CDecl.funDecl true "TSLanguage" 1 "tree_sitter_tui" [] ] }

/-- The function prototypes among a declaration list. -/
def funDeclsOf (ds : List CDecl) : List CDecl :=
  ds.filter fun d =>
    match d with
    | CDecl.funDecl _ _ _ _ _ => true
    | _ => false

/-- Whether a declaration defines a struct with the given name (so that
the name would no longer be opaque). -/
def definesStruct (n : String) (d : CDecl) : Bool :=
  match d with
  | CDecl.structDef m _ => m == n
  | _ => false

/-- Whether a declaration carries executable logic or concrete data
layout: a function definition, a struct definition, or an object
declaration. -/
def carriesLogicOrData (d : CDecl) : Bool :=
  match d with
  | CDecl.structDef _ _ => true
  | CDecl.funDef _ _ => true
  | CDecl.varDecl _ _ => true
  | _ => false

/-- Whether a declaration hands out a mutable handle: a function prototype
returning a non-const pointer. -/
def exposesMutableHandle (d : CDecl) : Bool :=
  match d with
  | CDecl.funDecl constRet _ ptrDepth _ _ => ptrDepth ≥ 1 && !constRet
  | _ => false

/-- One textual inclusion of a header under the C preprocessor, given the
set of already-defined guard macros: if the guard is already defined the
body is skipped, otherwise the guard is defined and the body's
declarations are emitted. -/
def expandOnce (defined : List String) (h : CHeader) : List String × List CDecl :=
  if h.guard ∈ defined then (defined, [])
  else (h.guard :: defined, h.decls)

/-- `n` successive textual inclusions of the same header, threading the
defined-macro set, collecting all emitted declarations. -/
def expandN : Nat → List String → CHeader → List String × List CDecl
  | 0, defined, _ => (defined, [])
  | n + 1, defined, h =>
      let r1 := expandOnce defined h
      let r2 := expandN n r1.1 h
      (r2.1, r1.2 ++ r2.2)

/-! ## Part 2: the incremental parsing engine, modelled from the spec -/

/-- Modelled from the spec: a Token is `{symbol ID, start byte offset, end
byte offset, flags}` produced by the Lexer.  The engine additionally
records `la`, the exclusive upper bound of the byte positions the lexer
examined while recognising this token (its lookahead extent), which the
Edit/Re-parse Controller consults to decide which old tokens an edit
cannot have affected. -/
structure Token where
  sym : Nat
  start : Nat
  stop : Nat
  la : Nat
  isError : Bool
deriving DecidableEq

/-- Modelled from the spec: an Edit is `{start byte, old end byte, new end
byte}`, the transient input to the Edit/Re-parse Controller. -/
structure Edit where
  start : Nat
  oldEnd : Nat
  newEnd : Nat
deriving DecidableEq

/-- Modelled from the spec: a parse action — shift, reduce, accept, or
error — as looked up in the Grammar Table for a (state, symbol) pair. -/
inductive Action where
  | shift (next : Nat)
  | reduce (arity : Nat) (sym : Nat)
  | accept
  | error
deriving DecidableEq

/-- Modelled from the spec: the GrammarTable, the immutable precompiled
description of one language consumed read-only at parse time: lexical
states with character-class transitions (`lexNext`), their accepting
symbols (`lexAccept`), the parse action table (`action`), the nonterminal
goto table (`goto`), start states, the explicit configurable bound on
consecutive reduce steps (`maxReduce`, per the spec's requirement that
recovery bounds be explicit step limits), and the distinguished root and
error symbol IDs. -/
structure GrammarTable where
  lexNext : Nat → Char → Option Nat
  lexAccept : Nat → Option Nat
  lexStart : Nat
  action : Nat → Nat → Action
  goto : Nat → Nat → Nat
  pStart : Nat
  maxReduce : Nat
  rootSym : Nat
  errorSym : Nat

/-- Modelled from the spec: the lexer's DFA scan loop.  From position `p`
in state `s` it follows the grammar's character-class transitions,
recording in `best` the most recent accepting position and symbol, until
no transition exists or the text ends; it returns the best acceptance
found together with the position at which the scan halted (every byte the
scan examined has an index not above that position). -/
def scanAux (g : GrammarTable) (text : List Char) :
    Nat → Nat → Nat → Option (Nat × Nat) → Option (Nat × Nat) × Nat
  | 0, p, _, best => (best, p)
  | fuel + 1, p, s, best =>
      match text[p]? with
      | none => (best, p)
      | some c =>
          match g.lexNext s c with
          | none => (best, p)
          | some s2 =>
              let best2 := match g.lexAccept s2 with
                | some sym => some (p + 1, sym)
                | none => best
              scanAux g text fuel (p + 1) s2 best2

/-- Modelled from the spec: `nextToken(cursor, lexState) -> Token`.  Runs
the DFA scan from position `p`; if an acceptance of positive length was
found it emits that token, otherwise (no match and no valid default) it
emits an `ERROR` token of length 1 and the cursor advances one byte,
guaranteeing forward progress. -/
def nextToken (g : GrammarTable) (text : List Char) (p : Nat) : Token :=
  match scanAux g text (text.length - p) p g.lexStart none with
  | (some (e, sym), q) =>
      if p < e then ⟨sym, p, e, q + 1, false⟩
      else ⟨g.errorSym, p, p + 1, q + 1, true⟩
  | (none, q) => ⟨g.errorSym, p, p + 1, q + 1, true⟩

/-- Modelled from the spec: tokenisation of the text from position `p`
onward, repeatedly invoking `nextToken` until the byte cursor reaches the
end of the text (fuel-indexed; `text.length` fuel always suffices because
every token has positive length). -/
def lexFrom (g : GrammarTable) (text : List Char) : Nat → Nat → List Token
  | 0, _ => []
  | fuel + 1, p =>
      if p < text.length then
        let t := nextToken g text p
        t :: lexFrom g text fuel t.stop
      else []

/-- Modelled from the spec: the full token sequence of a text. -/
def lexAll (g : GrammarTable) (text : List Char) : List Token :=
  lexFrom g text text.length 0

/-- Modelled from the spec: a SyntaxNode — `{symbol ID, byte range,
ordered sequence of child node references}`.  A leaf carries the token it
was built from (its byte range is the token span); an interior node
carries its symbol, its byte range, and its children.  Nodes are
immutable once built. -/
inductive SNode where
  | leaf (tok : Token)
  | node (sym : Nat) (lo : Nat) (hi : Nat) (children : List SNode)

mutual
/-- Decidable equality of syntax nodes. -/
def decEqSNode : (a b : SNode) → Decidable (a = b)
  | .leaf t, .leaf u =>
      match decEq t u with
      | isTrue h => isTrue (congrArg SNode.leaf h)
      | isFalse h => isFalse fun hh => h (SNode.leaf.inj hh)
  | .leaf _, .node _ _ _ _ => isFalse fun h => SNode.noConfusion h
  | .node _ _ _ _, .leaf _ => isFalse fun h => SNode.noConfusion h
  | .node s1 l1 h1 c1, .node s2 l2 h2 c2 =>
      match decEq s1 s2, decEq l1 l2, decEq h1 h2, decEqSNodeList c1 c2 with
      | isTrue hs, isTrue hl, isTrue hh, isTrue hc => isTrue (by rw [hs, hl, hh, hc])
      | isFalse hs, _, _, _ => isFalse fun h => hs (SNode.node.inj h).1
      | _, isFalse hl, _, _ => isFalse fun h => hl (SNode.node.inj h).2.1
      | _, _, isFalse hh, _ => isFalse fun h => hh (SNode.node.inj h).2.2.1
      | _, _, _, isFalse hc => isFalse fun h => hc (SNode.node.inj h).2.2.2

/-- Decidable equality of lists of syntax nodes. -/
def decEqSNodeList : (a b : List SNode) → Decidable (a = b)
  | [], [] => isTrue rfl
  | [], _ :: _ => isFalse fun h => List.noConfusion h
  | _ :: _, [] => isFalse fun h => List.noConfusion h
  | x :: xs, y :: ys =>
      match decEqSNode x y, decEqSNodeList xs ys with
      | isTrue h1, isTrue h2 => isTrue (by rw [h1, h2])
      | isFalse h1, _ => isFalse fun h => h1 (List.cons.inj h).1
      | _, isFalse h2 => isFalse fun h => h2 (List.cons.inj h).2
end

instance : DecidableEq SNode := decEqSNode

/-- Start of a node's byte range. -/
def nstart : SNode → Nat
  | .leaf t => t.start
  | .node _ lo _ _ => lo

/-- End (exclusive) of a node's byte range. -/
def nstop : SNode → Nat
  | .leaf t => t.stop
  | .node _ _ hi _ => hi

/-- Modelled from the spec: interior-node construction.  The new node's
byte range is derived from its children — it begins at the first child's
start and ends at the last child's stop (for an empty child list it is the
zero-width range at `dflt`). -/
def mkNode (sym : Nat) (cs : List SNode) (dflt : Nat) : SNode :=
  match cs with
  | [] => .node sym dflt dflt []
  | c :: rest => .node sym (nstart c) (nstop (rest.getLastD c)) (c :: rest)

/-- `chainB a cs b`: the nodes `cs`, in order, tile the byte range from
`a` to `b` — each node starts where its predecessor stopped, the first
starts at `a`, the last stops at `b`.  This is the spec's "children are
ordered, non-overlapping, and contiguous". -/
def chainB : Nat → List SNode → Nat → Bool
  | a, [], b => a == b
  | a, c :: cs, b => (nstart c == a) && chainB (nstop c) cs b

mutual
/-- Modelled from the spec's tree invariant: a node is well formed when
its byte range equals the union of its children's byte ranges (for a
leaf, the token span, which holds by representation provided the span is
an honest interval) and its children are ordered, non-overlapping,
contiguous, and themselves well formed. -/
def wfB : SNode → Bool
  | .leaf t => decide (t.start ≤ t.stop)
  | .node _ lo hi cs => chainB lo cs hi && wfAll cs

/-- All nodes in the list are well formed. -/
def wfAll : List SNode → Bool
  | [] => true
  | c :: cs => wfB c && wfAll cs
end

/-- The single-node part of the tree invariant, as the spec states it for
one node `N`: `N`'s byte range equals the union of its children's byte
ranges (token span for a leaf), with children ordered, non-overlapping,
contiguous. -/
def localWf : SNode → Bool
  | .leaf t => decide (t.start ≤ t.stop)
  | .node _ lo hi cs => chainB lo cs hi

mutual
/-- `subB v t`: `v` occurs as a subtree of `t` (including `t` itself). -/
def subB (v : SNode) : SNode → Bool
  | .leaf t => v == .leaf t
  | .node sym lo hi cs => v == .node sym lo hi cs || subAny v cs

/-- `v` occurs as a subtree of some tree in the list. -/
def subAny (v : SNode) : List SNode → Bool
  | [] => false
  | c :: cs => subB v c || subAny v cs
end

mutual
/-- The tokens at the leaves of a tree, left to right. -/
def leavesOf : SNode → List Token
  | .leaf t => [t]
  | .node _ _ _ cs => leavesList cs

/-- The tokens at the leaves of a forest, left to right. -/
def leavesList : List SNode → List Token
  | [] => []
  | c :: cs => leavesOf c ++ leavesList cs
end

/-- Modelled from the spec: the Parser Core's stack of
(state, partial-node) pairs, top first. -/
abbrev Stack := List (Nat × SNode)

/-- The parse state at the top of the stack (the start state for an empty
stack). -/
def topState (g : GrammarTable) (st : Stack) : Nat :=
  match st with
  | [] => g.pStart
  | (s, _) :: _ => s

/-- Modelled from the spec: a Reduce step — pop `n` stack entries per the
production's arity, combine them into one new interior node, and push it
with the goto state for the produced nonterminal. -/
def doReduce (g : GrammarTable) (n sym : Nat) (st : Stack) : Stack :=
  let popped := st.take n
  let rest := st.drop n
  (g.goto (topState g rest) sym, mkNode sym ((popped.map Prod.snd).reverse) 0) :: rest

/-- Modelled from the spec: the chain of reduce actions performed before a
token is consumed, bounded by the explicit `maxReduce` step limit; a
reduce whose arity is zero or exceeds the stack is refused (the table is
then treated as yielding no valid action for this lookahead). -/
def applyReduces (g : GrammarTable) : Nat → Stack → Nat → Stack
  | 0, st, _ => st
  | fuel + 1, st, sym =>
      match g.action (topState g st) sym with
      | Action.reduce n rsym =>
          if 1 ≤ n ∧ n ≤ st.length then applyReduces g fuel (doReduce g n rsym st) sym
          else st
      | _ => st

/-- Modelled from the spec: consuming one token.  First the pending
reduces for this lookahead are applied; then, if the action table says
shift, the token is pushed as a leaf; otherwise (no valid action) the
engine enters error recovery and wraps the token in an `ERROR` node so no
input is lost from the tree, and continues — recovery is never fatal. -/
def consume (g : GrammarTable) (st : Stack) (tok : Token) : Stack :=
  let st2 := applyReduces g g.maxReduce st tok.sym
  match g.action (topState g st2) tok.sym with
  | Action.shift s2 => (s2, SNode.leaf tok) :: st2
  | _ => (topState g st2, mkNode g.errorSym [SNode.leaf tok] 0) :: st2

/-- Modelled from the spec: the Parser Core's main loop — consume the
token sequence left to right, threading the stack. -/
def runParser (g : GrammarTable) (st : Stack) (toks : List Token) : Stack :=
  toks.foldl (consume g) st

/-- Modelled from the spec: at end of input the remaining stack nodes are
combined into the single parse root. -/
def finalizeStack (g : GrammarTable) (st : Stack) : SNode :=
  mkNode g.rootSym ((st.map Prod.snd).reverse) 0

/-- Modelled from the spec: a Tree — root node ownership plus the source
text length.  Created by a full parse; superseded, never mutated, by each
incremental re-parse. -/
structure Tree where
  root : SNode
  len : Nat
deriving DecidableEq

/-- Modelled from the spec: `parse(GrammarTable, sourceText) -> Tree`,
the full parse — tokenise the whole text and run the Parser Core on the
token sequence.  Totality of this definition is the termination
guarantee. -/
def parse (g : GrammarTable) (text : List Char) : Tree :=
  ⟨finalizeStack g (runParser g [] (lexAll g text)), text.length⟩

/-- Modelled from the spec's error taxonomy: `InvalidEdit` — edit range
outside current text bounds. -/
inductive ParseError where
  | invalidEdit
deriving DecidableEq

deriving instance DecidableEq for Except

/-- Modelled from the spec: an edit is valid for a tree over `len` bytes
when its replaced range is well ordered and within bounds. -/
def validEdit (e : Edit) (len : Nat) : Prop :=
  e.start ≤ e.oldEnd ∧ e.oldEnd ≤ len ∧ e.start ≤ e.newEnd

instance (e : Edit) (len : Nat) : Decidable (validEdit e len) := by
  unfold validEdit
  exact inferInstance

/-- The byte cursor at which re-lexing must restart after reusing a token
run: the stop of the last reused token, or `p` if none was reused. -/
def restartPos (p : Nat) (ts : List Token) : Nat :=
  match ts.getLast? with
  | none => p
  | some t => t.stop

/-- Modelled from the spec: `reparse(oldTree, edit, newText) -> newTree`.
The edit is validated first and rejected with `InvalidEdit` before any
tree is built.  Otherwise the controller reuses the maximal run of the
old tree's leaf tokens whose lookahead extents lie at or before the edit
start — tokens the edit cannot have affected — re-lexes the remainder of
the new text from the end of that run, and re-invokes the Parser Core. -/
def reparse (g : GrammarTable) (old : Tree) (e : Edit) (newText : List Char) :
    Except ParseError Tree :=
  if validEdit e old.len then
    let reused := (leavesOf old.root).takeWhile fun t => t.la ≤ e.start
    let p := restartPos 0 reused
    let toks := reused ++ lexFrom g newText newText.length p
    Except.ok ⟨finalizeStack g (runParser g [] toks), newText.length⟩
  else Except.error ParseError.invalidEdit

/-- Modelled from the spec: the controller's state update — on a rejected
edit the old tree remains the current, valid, usable tree. -/
def reparseOr (g : GrammarTable) (old : Tree) (e : Edit) (newText : List Char) : Tree :=
  match reparse g old e newText with
  | Except.ok t => t
  | Except.error _ => old

/-- Modelled from the spec: applying an Edit to a text — the bytes from
`start` to `oldEnd` are replaced by `repl`, so the new text is the
unchanged prefix, the replacement, and the unchanged suffix. -/
def applyEdit (text : List Char) (e : Edit) (repl : List Char) : List Char :=
  text.take e.start ++ repl ++ text.drop e.oldEnd

/-- `tokChainB a ts b`: the tokens `ts` tile the byte range from `a` to
`b` contiguously, each of positive length. -/
def tokChainB : Nat → List Token → Nat → Bool
  | a, [], b => a == b
  | a, t :: ts, b => (t.start == a) && (decide (a < t.stop)) && tokChainB t.stop ts b


/-! ## Arena representation of trees (structural sharing, per the spec's
design notes: arena-indexed nodes rather than raw pointer graphs) -/

/-- Modelled from the spec: a node as stored in the arena — a leaf
carries its token; an interior node carries its symbol, byte range, and
the arena indices of its children (non-owning references resolved through
the arena index). -/
inductive ANode where
  | aleaf (tok : Token)
  | anode (sym : Nat) (lo : Nat) (hi : Nat) (kids : List Nat)
deriving DecidableEq

/-- Modelled from the spec: the node arena.  Nodes are only ever
appended; existing entries are immutable, so other live tree versions
referencing them are never disturbed. -/
abbrev Arena := List ANode

/-- First arena index holding exactly this stored node, if any. -/
def findNode : Arena → ANode → Option Nat
  | [], _ => none
  | m :: ar, n => if m = n then some 0 else (findNode ar n).map (· + 1)

/-- Modelled from the spec: interning one node — reuse the index of a
structurally identical stored node when one exists (structural sharing),
otherwise append the node at a fresh index. -/
def addNode (ar : Arena) (n : ANode) : Arena × Nat :=
  match findNode ar n with
  | some i => (ar, i)
  | none => (ar ++ [n], ar.length)

mutual
/-- Modelled from the spec: storing a tree into the arena with maximal
structural sharing, returning the extended arena and the tree's index. -/
def internT : Arena → SNode → Arena × Nat
  | ar, SNode.leaf t => addNode ar (ANode.aleaf t)
  | ar, SNode.node sym lo hi cs =>
      let r := internList ar cs
      addNode r.1 (ANode.anode sym lo hi r.2)

/-- Storing a forest into the arena, left to right. -/
def internList : Arena → List SNode → Arena × List Nat
  | ar, [] => (ar, [])
  | ar, c :: cs =>
      let r1 := internT ar c
      let r2 := internList r1.1 cs
      (r2.1, r1.2 :: r2.2)
end

mutual
/-- Reading a tree back out of the arena (fuel-indexed). -/
def decodeF (ar : Arena) : Nat → Nat → Option SNode
  | 0, _ => none
  | fuel + 1, i =>
      match ar[i]? with
      | some (ANode.aleaf t) => some (SNode.leaf t)
      | some (ANode.anode sym lo hi ks) =>
          match decodeKids ar fuel ks with
          | some cs => some (SNode.node sym lo hi cs)
          | none => none
      | none => none

/-- Reading a forest of arena indices back out (fuel-indexed). -/
def decodeKids (ar : Arena) : Nat → List Nat → Option (List SNode)
  | _, [] => some []
  | fuel, k :: ks =>
      match decodeF ar fuel k, decodeKids ar fuel ks with
      | some c, some cs => some (c :: cs)
      | _, _ => none
end

/-- Index `i` stores the tree value `v` (readable with some fuel). -/
def decodes (ar : Arena) (i : Nat) (v : SNode) : Prop :=
  ∃ fuel, decodeF ar fuel i = some v

/-- The arena indices a tree rooted at index `r` references,
transitively (fuel-indexed; the root itself included). -/
def reachIdx (ar : Arena) : Nat → Nat → List Nat
  | 0, _ => []
  | fuel + 1, i =>
      i :: (match ar[i]? with
        | some (ANode.anode _ _ _ ks) => ks.flatMap (reachIdx ar fuel)
        | _ => [])

/-- Index `i` is referenced (shared) by the tree rooted at `r`. -/
def reaches (ar : Arena) (r i : Nat) : Prop :=
  ∃ fuel, i ∈ reachIdx ar fuel r

/-- Modelled from the spec: a versioned tree with arena-held nodes — the
abstract tree value, the node arena, and the root's index. -/
structure ATree where
  tree : Tree
  nodes : Arena
  root : Nat
deriving DecidableEq

/-- Modelled from the spec: a full parse producing an arena-held tree. -/
def parseA (g : GrammarTable) (text : List Char) : ATree :=
  let t := parse g text
  let r := internT [] t.root
  ⟨t, r.1, r.2⟩

/-- Modelled from the spec: incremental re-parse on the arena
representation — the new version's nodes are interned into the old
version's arena, which is append-only, so every node of the old tree is
untouched and unchanged subtrees are shared by index. -/
def reparseA (g : GrammarTable) (old : ATree) (e : Edit) (newText : List Char) :
    Except ParseError ATree :=
  match reparse g old.tree e newText with
  | Except.error err => Except.error err
  | Except.ok t =>
      let r := internT old.nodes t.root
      Except.ok ⟨t, r.1, r.2⟩

/-- Extract the tree of a successful re-parse, keeping the old tree on a
rejected edit. -/
def okOr (d : ATree) : Except ParseError ATree → ATree
  | Except.ok t => t
  | Except.error _ => d

/-- A concrete grammar instance used to exercise the engine: lexical
states recognising the two-character word "aa" (positions 0 → 1 → 2,
accepting in state 2 with symbol 10), a parse table that always shifts,
and no reduce budget. -/
def demoG : GrammarTable :=
  { lexNext := fun s c =>
      if s = 0 ∧ c = 'a' then some 1
      else if s = 1 ∧ c = 'a' then some 2
      else none
  , lexAccept := fun s => if s = 2 then some 10 else none
  , lexStart := 0
  , action := fun _ _ => Action.shift 0
  , goto := fun _ _ => 0
  , pStart := 0
  , maxReduce := 0
  , rootSym := 99
  , errorSym := 98 }

/-- The old arena-held tree in the concrete re-parse scenario. -/
def demoOldA : ATree := parseA demoG ['a', 'a']

/-- The concrete edit: insert one byte in the interior of the leaf token
spanning bytes 0–2. -/
def demoEdit : Edit := ⟨1, 1, 2⟩

/-- The post-edit text. -/
def demoNewText : List Char := applyEdit ['a', 'a'] demoEdit ['a']

/-- The new arena-held tree produced by the concrete re-parse. -/
def demoNewA : ATree := okOr demoOldA (reparseA demoG demoOldA demoEdit demoNewText)

/-- The nodes of a stack, bottom to top (left to right in text order). -/
def nodesRev (st : Stack) : List SNode := (st.map Prod.snd).reverse

/-- The Parser Core's invariant: the stack's nodes, bottom to top, tile
the byte range from 0 to the current position, and all of them satisfy
the tree invariant. -/
def StackInv (st : Stack) (pos : Nat) : Prop :=
  chainB 0 (nodesRev st) pos = true ∧ wfAll (nodesRev st) = true

/-- The token sequence currently held by a stack, in text order. -/
def stackToks (st : Stack) : List Token := leavesList (nodesRev st)

/-- The child indices a stored node references. -/
def kidsOf : ANode → List Nat
  | ANode.aleaf _ => []
  | ANode.anode _ _ _ ks => ks

/-- Arena well-formedness: every stored node references only
strictly earlier indices, so references always resolve backwards. -/
def ArenaWf (ar : Arena) : Prop :=
  ∀ (i : Nat) (nd : ANode), ar[i]? = some nd → ∀ k ∈ kidsOf nd, k < i

/-- Arena canonicity: distinct indices never store the same tree value,
so a tree value determines the index that holds it. -/
def ArenaInj (ar : Arena) : Prop :=
  ∀ (i j : Nat) (v : SNode), decodes ar i v → decodes ar j v → i = j

/-- A well-formed, canonical arena. -/
def GoodArena (ar : Arena) : Prop := ArenaWf ar ∧ ArenaInj ar

/-! ## Header lemmas -/

/-- Once a header's guard is among the defined macros, further inclusions
emit nothing and define nothing new. -/
theorem expandN_guarded (h : CHeader) (defined : List String)
    (hg : h.guard ∈ defined) : ∀ n, expandN n defined h = (defined, []) := by
  intro n
  induction n with
  | zero => rfl
  | succ n ih =>
      simp only [expandN, expandOnce, if_pos hg, ih, List.nil_append]

/-! ## Lexer lemmas -/

/-- A scan that starts where the text has ended halts immediately. -/
theorem scanAux_at_end (g : GrammarTable) (text : List Char) (fuel p s : Nat)
    (best : Option (Nat × Nat)) (h : text[p]? = none) :
    scanAux g text fuel p s best = (best, p) := by
  cases fuel with
  | zero => rfl
  | succ fuel => simp only [scanAux, h]

/-- One scan step that halts on a failing transition. -/
theorem scanAux_step_halt (g : GrammarTable) (text : List Char) (fuel p s : Nat)
    (best : Option (Nat × Nat)) (c : Char) (hc : text[p]? = some c)
    (hn : g.lexNext s c = none) :
    scanAux g text (fuel + 1) p s best = (best, p) := by
  simp only [scanAux, hc, hn]

/-- One scan step that follows a transition. -/
theorem scanAux_step_move (g : GrammarTable) (text : List Char) (fuel p s : Nat)
    (best : Option (Nat × Nat)) (c : Char) (s2 : Nat) (hc : text[p]? = some c)
    (hn : g.lexNext s c = some s2) :
    scanAux g text (fuel + 1) p s best =
      scanAux g text fuel (p + 1) s2
        (match g.lexAccept s2 with
          | some sym => some (p + 1, sym)
          | none => best) := by
  simp only [scanAux, hc, hn]

/-- Every acceptance the scan reports lies within the text. -/
theorem scanAux_best_le (g : GrammarTable) (text : List Char) :
    ∀ fuel p s best b q, scanAux g text fuel p s best = (b, q) →
      (∀ e0 s0, best = some (e0, s0) → e0 ≤ text.length) →
      ∀ e0 s0, b = some (e0, s0) → e0 ≤ text.length := by
  intro fuel
  induction fuel with
  | zero =>
      intro p s best b q hrun hbest e0 s0 hb
      simp only [scanAux] at hrun
      obtain ⟨h1, _⟩ := Prod.mk.inj hrun
      exact hbest e0 s0 (h1 ▸ hb)
  | succ fuel ih =>
      intro p s best b q hrun hbest e0 s0 hb
      cases hc : text[p]? with
      | none =>
          rw [scanAux_at_end g text _ p s best hc] at hrun
          obtain ⟨h1, _⟩ := Prod.mk.inj hrun
          exact hbest e0 s0 (h1 ▸ hb)
      | some c =>
          cases hn : g.lexNext s c with
          | none =>
              rw [scanAux_step_halt g text fuel p s best c hc hn] at hrun
              obtain ⟨h1, _⟩ := Prod.mk.inj hrun
              exact hbest e0 s0 (h1 ▸ hb)
          | some s2 =>
              rw [scanAux_step_move g text fuel p s best c s2 hc hn] at hrun
              have hplen : p < text.length := by
                by_contra hcon
                have hnone : text[p]? = none := by
                  apply List.getElem?_eq_none
                  omega
                rw [hnone] at hc
                cases hc
              refine ih (p + 1) s2 _ b q hrun ?_ e0 s0 hb
              intro e1 s1 hb2
              cases ha : g.lexAccept s2 with
              | some sym =>
                  rw [ha] at hb2
                  obtain ⟨he, _⟩ := Prod.mk.inj (Option.some.inj hb2)
                  omega
              | none =>
                  rw [ha] at hb2
                  exact hbest e1 s1 hb2

/-- The scan's halt position is at or after its start, and every reported
acceptance lies at or before the halt position. -/
theorem scanAux_bounds (g : GrammarTable) (text : List Char) :
    ∀ fuel p s best b q, scanAux g text fuel p s best = (b, q) →
      (∀ e0 s0, best = some (e0, s0) → e0 ≤ p) →
      p ≤ q ∧ ∀ e0 s0, b = some (e0, s0) → e0 ≤ q := by
  intro fuel
  induction fuel with
  | zero =>
      intro p s best b q hrun hbest
      simp only [scanAux] at hrun
      obtain ⟨h1, h2⟩ := Prod.mk.inj hrun
      subst h1; subst h2
      exact ⟨Nat.le_refl _, hbest⟩
  | succ fuel ih =>
      intro p s best b q hrun hbest
      cases hc : text[p]? with
      | none =>
          rw [scanAux_at_end g text _ p s best hc] at hrun
          obtain ⟨h1, h2⟩ := Prod.mk.inj hrun
          subst h1; subst h2
          exact ⟨Nat.le_refl _, hbest⟩
      | some c =>
          cases hn : g.lexNext s c with
          | none =>
              rw [scanAux_step_halt g text fuel p s best c hc hn] at hrun
              obtain ⟨h1, h2⟩ := Prod.mk.inj hrun
              subst h1; subst h2
              exact ⟨Nat.le_refl _, hbest⟩
          | some s2 =>
              rw [scanAux_step_move g text fuel p s best c s2 hc hn] at hrun
              have hrec := ih (p + 1) s2 _ b q hrun ?_
              · exact ⟨by omega, hrec.2⟩
              · intro e1 s1 hb2
                cases ha : g.lexAccept s2 with
                | some sym =>
                    rw [ha] at hb2
                    obtain ⟨he, _⟩ := Prod.mk.inj (Option.some.inj hb2)
                    omega
                | none =>
                    rw [ha] at hb2
                    have := hbest e1 s1 hb2
                    omega

/-- The scan's halt position never precedes its start. -/
theorem scanAux_pos_le (g : GrammarTable) (text : List Char) :
    ∀ fuel p s best b q, scanAux g text fuel p s best = (b, q) → p ≤ q := by
  intro fuel
  induction fuel with
  | zero =>
      intro p s best b q hrun
      simp only [scanAux] at hrun
      obtain ⟨_, h2⟩ := Prod.mk.inj hrun
      omega
  | succ fuel ih =>
      intro p s best b q hrun
      cases hc : text[p]? with
      | none =>
          rw [scanAux_at_end g text _ p s best hc] at hrun
          obtain ⟨_, h2⟩ := Prod.mk.inj hrun
          omega
      | some c =>
          cases hn : g.lexNext s c with
          | none =>
              rw [scanAux_step_halt g text fuel p s best c hc hn] at hrun
              obtain ⟨_, h2⟩ := Prod.mk.inj hrun
              omega
          | some s2 =>
              rw [scanAux_step_move g text fuel p s best c s2 hc hn] at hrun
              have := ih (p + 1) s2 _ b q hrun
              omega

/-- Scan congruence: two texts that agree on all byte positions below `B`
produce identical scans whenever the scan halts below `B` (with the
canonical remaining-length fuel on each side). -/
theorem scanAux_congr (g : GrammarTable) (t1 t2 : List Char) (B : Nat)
    (hag : ∀ i, i < B → t1[i]? = t2[i]?) :
    ∀ fuel p s best b q, scanAux g t1 fuel p s best = (b, q) →
      fuel = t1.length - p → q < B →
      scanAux g t2 (t2.length - p) p s best = (b, q) := by
  intro fuel
  induction fuel with
  | zero =>
      intro p s best b q hrun hfuel hqB
      simp only [scanAux] at hrun
      obtain ⟨h1, h2⟩ := Prod.mk.inj hrun
      subst h1; subst h2
      have ht1 : t1[p]? = none := by apply List.getElem?_eq_none; omega
      have ht2 : t2[p]? = none := by rw [← hag p hqB]; exact ht1
      exact scanAux_at_end g t2 _ p s best ht2
  | succ fuel ih =>
      intro p s best b q hrun hfuel hqB
      have hplen : p < t1.length := by omega
      cases hc : t1[p]? with
      | none =>
          exfalso
          rw [List.getElem?_eq_none_iff] at hc
          omega
      | some c =>
          cases hn : g.lexNext s c with
          | none =>
              rw [scanAux_step_halt g t1 fuel p s best c hc hn] at hrun
              obtain ⟨h1, h2⟩ := Prod.mk.inj hrun
              subst h1; subst h2
              have ht2 : t2[p]? = some c := by rw [← hag p hqB]; exact hc
              have hplen2 : p < t2.length := by
                by_contra hcon
                have hnone : t2[p]? = none := by apply List.getElem?_eq_none; omega
                rw [hnone] at ht2; cases ht2
              have hf2 : t2.length - p = (t2.length - (p + 1)) + 1 := by omega
              rw [hf2]
              exact scanAux_step_halt g t2 _ p s best c ht2 hn
          | some s2 =>
              rw [scanAux_step_move g t1 fuel p s best c s2 hc hn] at hrun
              have hq : p + 1 ≤ q := scanAux_pos_le g t1 fuel (p + 1) s2 _ b q hrun
              have ht2 : t2[p]? = some c := by rw [← hag p (by omega)]; exact hc
              have hplen2 : p < t2.length := by
                by_contra hcon
                have hnone : t2[p]? = none := by apply List.getElem?_eq_none; omega
                rw [hnone] at ht2; cases ht2
              have hf2 : t2.length - p = (t2.length - (p + 1)) + 1 := by omega
              rw [hf2]
              rw [scanAux_step_move g t2 _ p s best c s2 ht2 hn]
              exact ih (p + 1) s2 _ b q hrun (by omega) hqB

/-- The token's start is the cursor position it was lexed from. -/
theorem nextToken_start (g : GrammarTable) (text : List Char) (p : Nat) :
    (nextToken g text p).start = p := by
  cases hscan : scanAux g text (text.length - p) p g.lexStart none with
  | mk b q =>
      cases b with
      | none => simp [nextToken, hscan]
      | some es =>
          obtain ⟨e, sym⟩ := es
          by_cases he : p < e
          · simp [nextToken, hscan, he]
          · simp [nextToken, hscan, he]

/-- The token's lookahead extent is one past the scan's halt position. -/
theorem nextToken_la (g : GrammarTable) (text : List Char) (p : Nat) :
    (nextToken g text p).la =
      (scanAux g text (text.length - p) p g.lexStart none).2 + 1 := by
  cases hscan : scanAux g text (text.length - p) p g.lexStart none with
  | mk b q =>
      cases b with
      | none => simp [nextToken, hscan]
      | some es =>
          obtain ⟨e, sym⟩ := es
          by_cases he : p < e
          · simp [nextToken, hscan, he]
          · simp [nextToken, hscan, he]

/-- Forward progress: every token has positive length. -/
theorem nextToken_progress (g : GrammarTable) (text : List Char) (p : Nat) :
    p < (nextToken g text p).stop := by
  cases hscan : scanAux g text (text.length - p) p g.lexStart none with
  | mk b q =>
      cases b with
      | none => simp [nextToken, hscan]
      | some es =>
          obtain ⟨e, sym⟩ := es
          by_cases he : p < e
          · simp [nextToken, hscan, he]
          · simp [nextToken, hscan, he]

/-- A token lexed inside the text stops within the text. -/
theorem nextToken_stop_le (g : GrammarTable) (text : List Char) (p : Nat)
    (h : p < text.length) : (nextToken g text p).stop ≤ text.length := by
  cases hscan : scanAux g text (text.length - p) p g.lexStart none with
  | mk b q =>
      cases b with
      | none => simp [nextToken, hscan]; omega
      | some es =>
          obtain ⟨e, sym⟩ := es
          have he_len : e ≤ text.length :=
            scanAux_best_le g text (text.length - p) p g.lexStart none _ q hscan
              (fun _ _ hx => by cases hx) e sym rfl
          by_cases he : p < e
          · simp [nextToken, hscan, he]; omega
          · simp [nextToken, hscan, he]; omega

/-- A token stops at or before its lookahead extent. -/
theorem nextToken_stop_le_la (g : GrammarTable) (text : List Char) (p : Nat) :
    (nextToken g text p).stop ≤ (nextToken g text p).la := by
  cases hscan : scanAux g text (text.length - p) p g.lexStart none with
  | mk b q =>
      have hbounds := scanAux_bounds g text (text.length - p) p g.lexStart none b q hscan
        (fun _ _ hx => by cases hx)
      cases b with
      | none => simp [nextToken, hscan]; omega
      | some es =>
          obtain ⟨e, sym⟩ := es
          have he_q : e ≤ q := hbounds.2 e sym rfl
          by_cases he : p < e
          · simp [nextToken, hscan, he]; omega
          · simp [nextToken, hscan, he]; omega

/-- Token congruence: two texts agreeing below `B` lex the same token at
`p` whenever that token's lookahead extent is at most `B`. -/
theorem nextToken_congr (g : GrammarTable) (t1 t2 : List Char) (B : Nat)
    (hag : ∀ i, i < B → t1[i]? = t2[i]?) (p : Nat)
    (hla : (nextToken g t1 p).la ≤ B) :
    nextToken g t2 p = nextToken g t1 p := by
  cases hscan : scanAux g t1 (t1.length - p) p g.lexStart none with
  | mk b q =>
      have hlaq : (nextToken g t1 p).la = q + 1 := by
        rw [nextToken_la, hscan]
      have hq : q < B := by omega
      have h2 := scanAux_congr g t1 t2 B hag _ p g.lexStart none b q hscan rfl hq
      simp [nextToken, hscan, h2]

/-- Lexing from a position at or past the end of the text yields no
tokens. -/
theorem lexFrom_at_end (g : GrammarTable) (text : List Char) (fuel p : Nat)
    (h : text.length ≤ p) : lexFrom g text fuel p = [] := by
  cases fuel with
  | zero => rfl
  | succ fuel => simp only [lexFrom, if_neg (by omega : ¬ p < text.length)]

/-- One lexing step inside the text. -/
theorem lexFrom_step (g : GrammarTable) (text : List Char) (fuel p : Nat)
    (h : p < text.length) :
    lexFrom g text (fuel + 1) p =
      nextToken g text p :: lexFrom g text fuel (nextToken g text p).stop := by
  simp only [lexFrom, if_pos h]

/-- Lexing is fuel-independent once the fuel covers the remaining text. -/
theorem lexFrom_fuel (g : GrammarTable) (text : List Char) :
    ∀ f1 f2 p, text.length - p ≤ f1 → text.length - p ≤ f2 →
      lexFrom g text f1 p = lexFrom g text f2 p := by
  intro f1
  induction f1 with
  | zero =>
      intro f2 p h1 h2
      have hp : text.length ≤ p := by omega
      rw [lexFrom_at_end g text 0 p hp, lexFrom_at_end g text f2 p hp]
  | succ f1 ih =>
      intro f2 p h1 h2
      by_cases hp : p < text.length
      · have hprog := nextToken_progress g text p
        have hf2 : f2 = (f2 - 1) + 1 := by omega
        rw [hf2, lexFrom_step g text f1 p hp, lexFrom_step g text (f2 - 1) p hp]
        congr 1
        exact ih (f2 - 1) (nextToken g text p).stop (by omega) (by omega)
      · rw [lexFrom_at_end g text _ p (by omega), lexFrom_at_end g text f2 p (by omega)]

/-- The token sequence lexed from `p` tiles the byte range from `p` to the
end of the text. -/
theorem lexFrom_chain (g : GrammarTable) (text : List Char) :
    ∀ fuel p, text.length - p ≤ fuel → p ≤ text.length →
      tokChainB p (lexFrom g text fuel p) text.length = true := by
  intro fuel
  induction fuel with
  | zero =>
      intro p h1 h2
      have hp : p = text.length := by omega
      rw [lexFrom_at_end g text 0 p (by omega)]
      simp [tokChainB, hp]
  | succ fuel ih =>
      intro p h1 h2
      by_cases hp : p < text.length
      · rw [lexFrom_step g text fuel p hp]
        have hstart := nextToken_start g text p
        have hprog := nextToken_progress g text p
        have hstop := nextToken_stop_le g text p hp
        simp only [tokChainB, Bool.and_eq_true, beq_iff_eq, decide_eq_true_eq]
        exact ⟨⟨hstart, hprog⟩, ih (nextToken g text p).stop (by omega) (by omega)⟩
      · have hp2 : p = text.length := by omega
        rw [lexFrom_at_end g text _ p (by omega)]
        simp [tokChainB, hp2]

/-- Along a token chain, the chain start never exceeds the chain end. -/
theorem tokChain_le : ∀ (ts : List Token) (a b : Nat), tokChainB a ts b = true → a ≤ b := by
  intro ts
  induction ts with
  | nil =>
      intro a b h
      simp only [tokChainB, beq_iff_eq] at h
      omega
  | cons t ts ih =>
      intro a b h
      simp only [tokChainB, Bool.and_eq_true, beq_iff_eq, decide_eq_true_eq] at h
      have := ih t.stop b h.2
      omega

/-- Every token in a chain stops at or before the chain end. -/
theorem tokChain_mem_stop :
    ∀ (ts : List Token) (a b : Nat) (t : Token),
      tokChainB a ts b = true → t ∈ ts → t.stop ≤ b := by
  intro ts
  induction ts with
  | nil => intro a b t _ hmem; cases hmem
  | cons t0 ts ih =>
      intro a b t h hmem
      simp only [tokChainB, Bool.and_eq_true, beq_iff_eq, decide_eq_true_eq] at h
      rcases List.mem_cons.1 hmem with heq | htail
      · subst heq
        exact tokChain_le ts t.stop b h.2
      · exact ih t0.stop b t h.2 htail

/-! ## Tree chain and well-formedness lemmas -/

/-- Splitting and joining node chains across list append. -/
theorem chainB_append : ∀ (xs ys : List SNode) (a b : Nat),
    (chainB a (xs ++ ys) b = true ↔
      ∃ m, chainB a xs m = true ∧ chainB m ys b = true) := by
  intro xs
  induction xs with
  | nil =>
      intro ys a b
      constructor
      · intro h
        exact ⟨a, by simp [chainB], h⟩
      · rintro ⟨m, hm, hys⟩
        simp only [chainB, beq_iff_eq] at hm
        subst hm
        exact hys
  | cons c xs ih =>
      intro ys a b
      simp only [List.cons_append, chainB, Bool.and_eq_true, beq_iff_eq]
      constructor
      · rintro ⟨hst, h⟩
        obtain ⟨m, h1, h2⟩ := (ih ys (nstop c) b).1 h
        exact ⟨m, ⟨hst, h1⟩, h2⟩
      · rintro ⟨m, ⟨hst, h1⟩, h2⟩
        exact ⟨hst, (ih ys (nstop c) b).2 ⟨m, h1, h2⟩⟩

/-- The first node of a chain starts at the chain start. -/
theorem chain_first (c : SNode) (cs : List SNode) (a b : Nat)
    (h : chainB a (c :: cs) b = true) : nstart c = a := by
  simp only [chainB, Bool.and_eq_true, beq_iff_eq] at h
  exact h.1

/-- The last node of a chain stops at the chain end. -/
theorem chain_last : ∀ (rest : List SNode) (c : SNode) (a b : Nat),
    chainB a (c :: rest) b = true → nstop (rest.getLastD c) = b := by
  intro rest
  induction rest with
  | nil =>
      intro c a b h
      simp only [chainB, Bool.and_eq_true, beq_iff_eq] at h
      simpa using h.2
  | cons d rest ih =>
      intro c a b h
      simp only [chainB, Bool.and_eq_true, beq_iff_eq] at h
      have := ih d (nstop c) b
      simp only [chainB, Bool.and_eq_true, beq_iff_eq] at this
      rw [List.getLastD_cons]
      exact this ⟨h.2.1, h.2.2⟩

/-- Well-formedness distributes over list append. -/
theorem wfAll_append : ∀ xs ys : List SNode, wfAll (xs ++ ys) = (wfAll xs && wfAll ys) := by
  intro xs
  induction xs with
  | nil => intro ys; simp [wfAll]
  | cons c xs ih =>
      intro ys
      simp only [List.cons_append, wfAll, ih, Bool.and_assoc, List.append_eq]

/-- Well-formedness of a forest is order-insensitive under reversal. -/
theorem wfAll_reverse : ∀ xs : List SNode, wfAll xs.reverse = wfAll xs := by
  intro xs
  induction xs with
  | nil => rfl
  | cons c xs ih =>
      simp only [List.reverse_cons, wfAll_append, ih, wfAll, Bool.and_true, Bool.true_and,
        Bool.and_comm]

/-- An interior node built from a nonempty chained forest is well formed
and spans exactly the chain's range. -/
theorem wfB_mkNode (sym : Nat) (cs : List SNode) (d a b : Nat)
    (hchain : chainB a cs b = true) (hall : wfAll cs = true) (hne : cs ≠ []) :
    wfB (mkNode sym cs d) = true ∧ nstart (mkNode sym cs d) = a ∧
      nstop (mkNode sym cs d) = b := by
  cases cs with
  | nil => exact absurd rfl hne
  | cons c rest =>
      have hfirst : nstart c = a := chain_first c rest a b hchain
      have hlast : nstop (rest.getLastD c) = b := chain_last rest c a b hchain
      refine ⟨?_, ?_, ?_⟩
      · simp only [mkNode, wfB, Bool.and_eq_true]
        exact ⟨by rw [hfirst, hlast]; exact hchain, hall⟩
      · simp only [mkNode, nstart]
        exact hfirst
      · simp only [mkNode, nstop]
        exact hlast

/-! ## Parser stack invariant -/

/-- The stack decomposes as dropped part plus popped part. -/
theorem nodesRev_split (st : Stack) (n : Nat) :
    nodesRev st = nodesRev (st.drop n) ++ ((st.take n).map Prod.snd).reverse := by
  unfold nodesRev
  rw [← List.reverse_append, ← List.map_append, List.take_append_drop]

/-- A reduce step preserves the stack invariant. -/
theorem stackInv_doReduce (g : GrammarTable) (n sym : Nat) (st : Stack) (pos : Nat)
    (hn : 1 ≤ n) (hle : n ≤ st.length) (h : StackInv st pos) :
    StackInv (doReduce g n sym st) pos := by
  obtain ⟨hchain, hwf⟩ := h
  rw [nodesRev_split st n] at hchain hwf
  set A := nodesRev (st.drop n) with hA
  set B := ((st.take n).map Prod.snd).reverse with hB
  obtain ⟨m, hA1, hB1⟩ := (chainB_append A B 0 pos).1 hchain
  rw [wfAll_append] at hwf
  have hwfA : wfAll A = true := (Bool.and_eq_true _ _ ▸ hwf).1
  have hwfB : wfAll B = true := (Bool.and_eq_true _ _ ▸ hwf).2
  have hBne : B ≠ [] := by
    have hlen : B.length = n := by
      rw [hB, List.length_reverse, List.length_map, List.length_take]
      omega
    intro hcon
    rw [hcon] at hlen
    simp at hlen
    omega
  obtain ⟨hmkwf, hmklo, hmkhi⟩ := wfB_mkNode sym B 0 m pos hB1 hwfB hBne
  constructor
  · show chainB 0 (nodesRev ((g.goto (topState g (st.drop n)) sym, mkNode sym B 0) :: st.drop n)) pos = true
    have : nodesRev ((g.goto (topState g (st.drop n)) sym, mkNode sym B 0) :: st.drop n) =
        A ++ [mkNode sym B 0] := by
      unfold nodesRev
      simp [hA, nodesRev]
    rw [this]
    refine (chainB_append A [mkNode sym B 0] 0 pos).2 ⟨m, hA1, ?_⟩
    simp only [chainB, Bool.and_eq_true, beq_iff_eq]
    exact ⟨hmklo, hmkhi⟩
  · show wfAll (nodesRev ((g.goto (topState g (st.drop n)) sym, mkNode sym B 0) :: st.drop n)) = true
    have : nodesRev ((g.goto (topState g (st.drop n)) sym, mkNode sym B 0) :: st.drop n) =
        A ++ [mkNode sym B 0] := by
      unfold nodesRev
      simp [hA, nodesRev]
    rw [this, wfAll_append, hwfA]
    simp [wfAll, hmkwf]

/-- The bounded reduce chain preserves the stack invariant. -/
theorem stackInv_applyReduces (g : GrammarTable) :
    ∀ fuel st sym pos, StackInv st pos → StackInv (applyReduces g fuel st sym) pos := by
  intro fuel
  induction fuel with
  | zero => intro st sym pos h; exact h
  | succ fuel ih =>
      intro st sym pos h
      cases hact : g.action (topState g st) sym with
      | reduce n rsym =>
          by_cases hcond : 1 ≤ n ∧ n ≤ st.length
          · simp only [applyReduces, hact, if_pos hcond]
            exact ih _ sym pos (stackInv_doReduce g n rsym st pos hcond.1 hcond.2 h)
          · simp only [applyReduces, hact, if_neg hcond]
            exact h
      | shift s2 => simpa only [applyReduces, hact] using h
      | accept => simpa only [applyReduces, hact] using h
      | error => simpa only [applyReduces, hact] using h

/-- Pushing a well-formed node that starts at the current position
extends the invariant to the node's stop. -/
theorem stackInv_push (st : Stack) (pos s : Nat) (nd : SNode)
    (h : StackInv st pos) (h1 : nstart nd = pos) (h2 : wfB nd = true) :
    StackInv ((s, nd) :: st) (nstop nd) := by
  obtain ⟨hchain, hwf⟩ := h
  have hsplit : nodesRev ((s, nd) :: st) = nodesRev st ++ [nd] := by
    unfold nodesRev
    simp
  constructor
  · rw [hsplit]
    refine (chainB_append _ [nd] 0 (nstop nd)).2 ⟨pos, hchain, ?_⟩
    simp only [chainB, Bool.and_eq_true, beq_iff_eq]
    exact ⟨h1, by simp⟩
  · rw [hsplit, wfAll_append, hwf]
    simp [wfAll, h2]

/-- Consuming one token preserves the stack invariant, advancing the
position to the token's stop. -/
theorem stackInv_consume (g : GrammarTable) (st : Stack) (pos : Nat) (tok : Token)
    (h : StackInv st pos) (hs : tok.start = pos) (hp : pos < tok.stop) :
    StackInv (consume g st tok) tok.stop := by
  have h2 := stackInv_applyReduces g g.maxReduce st tok.sym pos h
  set st2 := applyReduces g g.maxReduce st tok.sym with hst2
  have hleafwf : wfB (SNode.leaf tok) = true := by
    simp only [wfB, decide_eq_true_eq]
    omega
  cases hact : g.action (topState g st2) tok.sym with
  | shift s2 =>
      have := stackInv_push st2 pos s2 (SNode.leaf tok) h2 (by simp [nstart, hs]) hleafwf
      simpa only [consume, hact, nstop] using this
  | reduce n rsym =>
      have hndwf : wfB (mkNode g.errorSym [SNode.leaf tok] 0) = true := by
        simp [mkNode, List.getLastD, wfB, chainB, nstart, nstop, wfAll]
        omega
      have := stackInv_push st2 pos (topState g st2) (mkNode g.errorSym [SNode.leaf tok] 0) h2
        (by simp [mkNode, nstart, hs]) hndwf
      simpa only [consume, hact, mkNode, List.getLastD, nstop] using this
  | accept =>
      have hndwf : wfB (mkNode g.errorSym [SNode.leaf tok] 0) = true := by
        simp [mkNode, List.getLastD, wfB, chainB, nstart, nstop, wfAll]
        omega
      have := stackInv_push st2 pos (topState g st2) (mkNode g.errorSym [SNode.leaf tok] 0) h2
        (by simp [mkNode, nstart, hs]) hndwf
      simpa only [consume, hact, mkNode, List.getLastD, nstop] using this
  | error =>
      have hndwf : wfB (mkNode g.errorSym [SNode.leaf tok] 0) = true := by
        simp [mkNode, List.getLastD, wfB, chainB, nstart, nstop, wfAll]
        omega
      have := stackInv_push st2 pos (topState g st2) (mkNode g.errorSym [SNode.leaf tok] 0) h2
        (by simp [mkNode, nstart, hs]) hndwf
      simpa only [consume, hact, mkNode, List.getLastD, nstop] using this

/-- Running the Parser Core over a chained token sequence carries the
stack invariant to the chain's end. -/
theorem stackInv_run (g : GrammarTable) :
    ∀ (toks : List Token) (st : Stack) (pos b : Nat),
      StackInv st pos → tokChainB pos toks b = true →
      StackInv (runParser g st toks) b := by
  intro toks
  induction toks with
  | nil =>
      intro st pos b h hchain
      simp only [tokChainB, beq_iff_eq] at hchain
      subst hchain
      exact h
  | cons t ts ih =>
      intro st pos b h hchain
      simp only [tokChainB, Bool.and_eq_true, beq_iff_eq, decide_eq_true_eq] at hchain
      obtain ⟨⟨hstart, hprog⟩, hrest⟩ := hchain
      have hstep := stackInv_consume g st pos t h hstart hprog
      exact ih (consume g st t) t.stop b hstep hrest

/-- The root built from an invariant-carrying stack is well formed and
spans exactly `[0, b)`. -/
theorem finalize_inv (g : GrammarTable) (st : Stack) (b : Nat) (h : StackInv st b) :
    wfB (finalizeStack g st) = true ∧ nstart (finalizeStack g st) = 0 ∧
      nstop (finalizeStack g st) = b := by
  obtain ⟨hchain, hwf⟩ := h
  cases hcs : nodesRev st with
  | nil =>
      rw [hcs] at hchain
      simp only [chainB, beq_iff_eq] at hchain
      subst hchain
      unfold finalizeStack
      rw [show ((st.map Prod.snd).reverse : List SNode) = nodesRev st from rfl, hcs]
      simp [mkNode, wfB, chainB, wfAll, nstart, nstop]
  | cons c rest =>
      rw [hcs] at hchain hwf
      unfold finalizeStack
      rw [show ((st.map Prod.snd).reverse : List SNode) = nodesRev st from rfl, hcs]
      exact wfB_mkNode g.rootSym (c :: rest) 0 0 b hchain hwf (by simp)

/-- The invariant holds of the full parse's final stack. -/
theorem parse_stackInv (g : GrammarTable) (text : List Char) :
    StackInv (runParser g [] (lexAll g text)) text.length := by
  refine stackInv_run g (lexAll g text) [] 0 text.length ⟨rfl, rfl⟩ ?_
  exact lexFrom_chain g text text.length 0 (by omega) (by omega)

/-- The parse root is well formed. -/
theorem parse_wf (g : GrammarTable) (text : List Char) :
    wfB (parse g text).root = true :=
  (finalize_inv g _ text.length (parse_stackInv g text)).1

/-- The parse root spans exactly the whole input. -/
theorem parse_root_range (g : GrammarTable) (text : List Char) :
    nstart (parse g text).root = 0 ∧ nstop (parse g text).root = text.length :=
  (finalize_inv g _ text.length (parse_stackInv g text)).2

mutual
/-- In a well-formed tree every subtree satisfies the single-node
invariant. -/
theorem wfB_sub_localWf : ∀ t, wfB t = true → ∀ v, subB v t = true → localWf v = true
  | SNode.leaf tok => fun hwf v hsub => by
      simp only [subB, beq_iff_eq] at hsub
      subst hsub
      simpa [localWf, wfB] using hwf
  | SNode.node sym lo hi cs => fun hwf v hsub => by
      simp only [wfB, Bool.and_eq_true] at hwf
      simp only [subB, Bool.or_eq_true, beq_iff_eq] at hsub
      rcases hsub with heq | hsub
      · subst heq
        simp only [localWf]
        exact hwf.1
      · exact wfAll_sub_localWf cs hwf.2 v hsub

/-- In a well-formed forest every subtree satisfies the single-node
invariant. -/
theorem wfAll_sub_localWf : ∀ cs, wfAll cs = true → ∀ v, subAny v cs = true → localWf v = true
  | [] => fun _ v hsub => by simp [subAny] at hsub
  | c :: cs => fun hwf v hsub => by
      simp only [wfAll, Bool.and_eq_true] at hwf
      simp only [subAny, Bool.or_eq_true] at hsub
      rcases hsub with h | h
      · exact wfB_sub_localWf c hwf.1 v h
      · exact wfAll_sub_localWf cs hwf.2 v h
end

/-! ## Leaves of the parse tree are exactly the token sequence -/

/-- Leaf lists concatenate over forest append. -/
theorem leavesList_append : ∀ xs ys : List SNode,
    leavesList (xs ++ ys) = leavesList xs ++ leavesList ys := by
  intro xs
  induction xs with
  | nil => intro ys; rfl
  | cons c xs ih =>
      intro ys
      simp only [List.cons_append, leavesList, ih, List.append_assoc, List.append_eq]

/-- Building an interior node preserves the leaf sequence. -/
theorem leavesOf_mkNode (sym : Nat) (cs : List SNode) (d : Nat) :
    leavesOf (mkNode sym cs d) = leavesList cs := by
  cases cs with
  | nil => rfl
  | cons c rest => rfl

/-- Reduces rearrange the stack but never change its token sequence. -/
theorem stackToks_doReduce (g : GrammarTable) (n sym : Nat) (st : Stack) :
    stackToks (doReduce g n sym st) = stackToks st := by
  unfold stackToks doReduce
  have hsplit := nodesRev_split st n
  rw [hsplit, leavesList_append]
  have : nodesRev ((g.goto (topState g (st.drop n)) sym,
      mkNode sym ((st.take n).map Prod.snd).reverse 0) :: st.drop n) =
      nodesRev (st.drop n) ++ [mkNode sym ((st.take n).map Prod.snd).reverse 0] := by
    unfold nodesRev
    simp
  rw [this, leavesList_append]
  simp only [leavesList, leavesOf_mkNode, List.append_nil]

/-- The bounded reduce chain never changes the stack's token sequence. -/
theorem stackToks_applyReduces (g : GrammarTable) :
    ∀ fuel st sym, stackToks (applyReduces g fuel st sym) = stackToks st := by
  intro fuel
  induction fuel with
  | zero => intro st sym; rfl
  | succ fuel ih =>
      intro st sym
      cases hact : g.action (topState g st) sym with
      | reduce n rsym =>
          by_cases hcond : 1 ≤ n ∧ n ≤ st.length
          · simp only [applyReduces, hact, if_pos hcond]
            rw [ih, stackToks_doReduce]
          · simp only [applyReduces, hact, if_neg hcond]
      | shift s2 => simp only [applyReduces, hact]
      | accept => simp only [applyReduces, hact]
      | error => simp only [applyReduces, hact]

/-- Consuming a token appends exactly that token to the stack's token
sequence (shifted or wrapped in an error node alike). -/
theorem stackToks_consume (g : GrammarTable) (st : Stack) (tok : Token) :
    stackToks (consume g st tok) = stackToks st ++ [tok] := by
  have hred := stackToks_applyReduces g g.maxReduce st tok.sym
  set st2 := applyReduces g g.maxReduce st tok.sym with hst2
  have hpush : ∀ (s : Nat) (nd : SNode), leavesOf nd = [tok] →
      stackToks ((s, nd) :: st2) = stackToks st ++ [tok] := by
    intro s nd hnd
    unfold stackToks
    have : nodesRev ((s, nd) :: st2) = nodesRev st2 ++ [nd] := by
      unfold nodesRev
      simp
    rw [this, leavesList_append]
    simp only [leavesList, hnd, List.append_nil]
    rw [show leavesList (nodesRev st2) = stackToks st2 from rfl, hred]
    rfl
  cases hact : g.action (topState g st2) tok.sym with
  | shift s2 => simpa only [consume, hact] using hpush s2 (SNode.leaf tok) rfl
  | reduce n rsym => simpa only [consume, hact] using (hpush (topState g st2) (mkNode g.errorSym [SNode.leaf tok] 0) rfl)
  | accept => simpa only [consume, hact] using (hpush (topState g st2) (mkNode g.errorSym [SNode.leaf tok] 0) rfl)
  | error => simpa only [consume, hact] using (hpush (topState g st2) (mkNode g.errorSym [SNode.leaf tok] 0) rfl)

/-- The Parser Core preserves and appends the token sequence. -/
theorem stackToks_run (g : GrammarTable) :
    ∀ (toks : List Token) (st : Stack),
      stackToks (runParser g st toks) = stackToks st ++ toks := by
  intro toks
  induction toks with
  | nil => intro st; simp [runParser]
  | cons t ts ih =>
      intro st
      show stackToks (runParser g (consume g st t) ts) = stackToks st ++ (t :: ts)
      rw [ih, stackToks_consume]
      simp

/-- The leaves of the full parse's tree are exactly the lexed tokens. -/
theorem parse_leaves (g : GrammarTable) (text : List Char) :
    leavesOf (parse g text).root = lexAll g text := by
  show leavesOf (finalizeStack g (runParser g [] (lexAll g text))) = lexAll g text
  unfold finalizeStack
  rw [leavesOf_mkNode]
  rw [show leavesList ((runParser g [] (lexAll g text)).map Prod.snd).reverse =
    stackToks (runParser g [] (lexAll g text)) from rfl]
  rw [stackToks_run]
  rfl

/-! ## Incremental re-lexing equals full lexing -/

/-- Applying an edit leaves every byte before the edit start unchanged. -/
theorem applyEdit_agree (text : List Char) (e : Edit) (repl : List Char)
    (h1 : e.start ≤ e.oldEnd) (h2 : e.oldEnd ≤ text.length) :
    ∀ i, i < e.start → text[i]? = (applyEdit text e repl)[i]? := by
  intro i hi
  unfold applyEdit
  have htake : (text.take e.start).length = e.start := by
    rw [List.length_take]
    omega
  rw [List.getElem?_append_left (by rw [List.length_append, htake]; omega)]
  rw [List.getElem?_append_left (by rw [htake]; omega)]
  rw [List.getElem?_take]
  simp [hi]

/-- Length of the text after an edit. -/
theorem applyEdit_length (text : List Char) (e : Edit) (repl : List Char)
    (h1 : e.start ≤ e.oldEnd) (h2 : e.oldEnd ≤ text.length) :
    (applyEdit text e repl).length = e.start + repl.length + (text.length - e.oldEnd) := by
  unfold applyEdit
  rw [List.length_append, List.length_append, List.length_take, List.length_drop]
  omega

/-- The restart position steps through a reused token. -/
theorem restartPos_cons (a : Nat) (x : Token) (xs : List Token) :
    restartPos a (x :: xs) = restartPos x.stop xs := by
  cases xs with
  | nil => rfl
  | cons y ys =>
      simp only [restartPos]
      cases h : (y :: ys).getLast? with
      | none => simp at h
      | some t => rw [List.getLast?_cons_cons, h]

/-- Incremental re-lexing: after a valid edit, the new text's token
sequence from any position at or before the edit start is exactly the
reusable run of old tokens (those whose lookahead extents lie at or
before the edit start) followed by a fresh lex of the new text from the
restart position. -/
theorem lexFrom_incremental (g : GrammarTable) (text : List Char) (e : Edit)
    (repl : List Char) (hv : validEdit e text.length) :
    ∀ p, p ≤ e.start →
      lexFrom g (applyEdit text e repl) ((applyEdit text e repl).length - p) p =
        ((lexFrom g text (text.length - p) p).takeWhile fun t => t.la ≤ e.start) ++
          lexFrom g (applyEdit text e repl)
            ((applyEdit text e repl).length -
              restartPos p ((lexFrom g text (text.length - p) p).takeWhile
                fun t => t.la ≤ e.start))
            (restartPos p ((lexFrom g text (text.length - p) p).takeWhile
              fun t => t.la ≤ e.start)) := by
  obtain ⟨hv1, hv2, hv3⟩ := hv
  have hsl : e.start ≤ text.length := by omega
  have hnewlen : e.start ≤ (applyEdit text e repl).length := by
    rw [applyEdit_length text e repl hv1 hv2]
    omega
  have hagree := applyEdit_agree text e repl hv1 hv2
  set new := applyEdit text e repl with hnew
  have main : ∀ n p, e.start - p = n → p ≤ e.start →
      lexFrom g new (new.length - p) p =
        ((lexFrom g text (text.length - p) p).takeWhile fun t => t.la ≤ e.start) ++
          lexFrom g new
            (new.length - restartPos p ((lexFrom g text (text.length - p) p).takeWhile
              fun t => t.la ≤ e.start))
            (restartPos p ((lexFrom g text (text.length - p) p).takeWhile
              fun t => t.la ≤ e.start)) := by
    intro n
    induction n using Nat.strong_induction_on with
    | _ n ih =>
        intro p hn hp
        by_cases hplen : p < text.length
        · have hfold : text.length - p = (text.length - p - 1) + 1 := by omega
          rw [hfold, lexFrom_step g text _ p hplen]
          set t := nextToken g text p with ht
          have hprog : p < t.stop := nextToken_progress g text p
          have hstopla : t.stop ≤ t.la := nextToken_stop_le_la g text p
          by_cases hla : t.la ≤ e.start
          · have hps : p < e.start := by omega
            have hstop_le : t.stop ≤ e.start := by omega
            have ht2 : nextToken g new p = t :=
              nextToken_congr g text new e.start (fun i hi => hagree i hi) p hla
            have hpnew : p < new.length := by omega
            have hfoldn : new.length - p = (new.length - p - 1) + 1 := by omega
            rw [hfoldn, lexFrom_step g new _ p hpnew, ht2]
            have htw : ((t :: lexFrom g text (text.length - p - 1) t.stop).takeWhile
                fun t => t.la ≤ e.start) =
                t :: ((lexFrom g text (text.length - p - 1) t.stop).takeWhile
                  fun t => t.la ≤ e.start) := by
              simp [List.takeWhile_cons, hla]
            rw [htw]
            rw [restartPos_cons]
            have hfuel_old : lexFrom g text (text.length - p - 1) t.stop =
                lexFrom g text (text.length - t.stop) t.stop :=
              lexFrom_fuel g text _ _ t.stop (by omega) (by omega)
            have hfuel_new : lexFrom g new (new.length - p - 1) t.stop =
                lexFrom g new (new.length - t.stop) t.stop :=
              lexFrom_fuel g new _ _ t.stop (by omega) (by omega)
            rw [hfuel_old, hfuel_new]
            rw [List.cons_append]
            congr 1
            exact ih (e.start - t.stop) (by omega) t.stop rfl (by omega)
          · have htw : ((t :: lexFrom g text (text.length - p - 1) t.stop).takeWhile
                fun t => t.la ≤ e.start) = [] := by
              simp [List.takeWhile_cons, hla]
            rw [htw]
            simp [restartPos]
        · have hpl : text.length ≤ p := by omega
          have hz : text.length - p = 0 := by omega
          rw [hz, show lexFrom g text 0 p = [] from rfl]
          simp [List.takeWhile_nil, restartPos]
  intro p hp
  exact main (e.start - p) p rfl hp

/-- Incremental re-parse agrees with a full parse of the post-edit text:
for any valid edit, `reparse` on the old parse tree returns exactly the
tree a fresh `parse` of the new text produces. -/
theorem reparse_parse (g : GrammarTable) (text : List Char) (e : Edit) (repl : List Char)
    (hv : validEdit e text.length) :
    reparse g (parse g text) e (applyEdit text e repl) =
      Except.ok (parse g (applyEdit text e repl)) := by
  obtain ⟨hv1, hv2, hv3⟩ := hv
  have hinc := lexFrom_incremental g text e repl ⟨hv1, hv2, hv3⟩ 0 (Nat.zero_le _)
  rw [Nat.sub_zero, Nat.sub_zero] at hinc
  set new := applyEdit text e repl with hnew
  have hfuel : lexFrom g new
      (new.length - restartPos 0 ((lexFrom g text text.length 0).takeWhile
        fun t => t.la ≤ e.start))
      (restartPos 0 ((lexFrom g text text.length 0).takeWhile fun t => t.la ≤ e.start)) =
      lexFrom g new new.length
      (restartPos 0 ((lexFrom g text text.length 0).takeWhile fun t => t.la ≤ e.start)) :=
    lexFrom_fuel g new _ _ _ (by omega) (by omega)
  rw [hfuel] at hinc
  unfold reparse
  rw [if_pos (show validEdit e (parse g text).len from ⟨hv1, hv2, hv3⟩)]
  rw [parse_leaves]
  show Except.ok (⟨finalizeStack g (runParser g []
      (((lexFrom g text text.length 0).takeWhile fun t => t.la ≤ e.start) ++
        lexFrom g new new.length
          (restartPos 0 ((lexFrom g text text.length 0).takeWhile fun t => t.la ≤ e.start)))),
      new.length⟩ : Tree) = Except.ok (parse g new)
  rw [← hinc]
  rfl

/-! ## Arena lemmas -/

/-- A found index holds the looked-up node. -/
theorem findNode_some : ∀ (ar : Arena) (n : ANode) (i : Nat),
    findNode ar n = some i → ar[i]? = some n := by
  intro ar
  induction ar with
  | nil => intro n i h; cases h
  | cons m ar ih =>
      intro n i h
      by_cases hm : m = n
      · simp only [findNode, if_pos hm] at h
        obtain rfl := Option.some.inj h
        simp [hm]
      · simp only [findNode, if_neg hm] at h
        cases hf : findNode ar n with
        | none => rw [hf] at h; cases h
        | some j =>
            rw [hf] at h
            simp only [Option.map_some'] at h
            obtain rfl := Option.some.inj h
            simpa using ih n j hf

/-- A failed lookup means the node is stored nowhere. -/
theorem findNode_none : ∀ (ar : Arena) (n : ANode),
    findNode ar n = none → ∀ i : Nat, ar[i]? ≠ some n := by
  intro ar
  induction ar with
  | nil => intro n _ i h; simp at h
  | cons m ar ih =>
      intro n h i
      by_cases hm : m = n
      · simp only [findNode, if_pos hm] at h
        cases h
      · simp only [findNode, if_neg hm] at h
        have hf : findNode ar n = none := by
          cases hf : findNode ar n with
          | none => rfl
          | some j => rw [hf] at h; simp at h
        cases i with
        | zero =>
            intro hcon
            simp only [List.getElem?_cons_zero] at hcon
            exact hm (Option.some.inj hcon)
        | succ i =>
            intro hcon
            simp only [List.getElem?_cons_succ] at hcon
            exact ih n hf i hcon

/-- Interning only ever appends to the arena. -/
theorem addNode_ext (ar : Arena) (n : ANode) : ∃ ext, (addNode ar n).1 = ar ++ ext := by
  unfold addNode
  cases hf : findNode ar n with
  | some i => exact ⟨[], by simp⟩
  | none => exact ⟨[n], rfl⟩

/-- The interned index holds the interned node. -/
theorem addNode_get (ar : Arena) (n : ANode) :
    (addNode ar n).1[(addNode ar n).2]? = some n := by
  unfold addNode
  cases hf : findNode ar n with
  | some i => simpa using findNode_some ar n i hf
  | none => simp

/-- The interned index is within the arena. -/
theorem addNode_lt (ar : Arena) (n : ANode) :
    (addNode ar n).2 < (addNode ar n).1.length := by
  have h := addNode_get ar n
  exact (List.getElem?_eq_some.1 h).1

mutual
/-- Storing a tree only ever appends to the arena. -/
theorem internT_ext : ∀ (ar : Arena) (t : SNode), ∃ ext, (internT ar t).1 = ar ++ ext
  | ar, SNode.leaf t => by
      simpa only [internT] using addNode_ext ar (ANode.aleaf t)
  | ar, SNode.node sym lo hi cs => by
      obtain ⟨ext1, h1⟩ := internList_ext ar cs
      obtain ⟨ext2, h2⟩ := addNode_ext (internList ar cs).1 (ANode.anode sym lo hi (internList ar cs).2)
      refine ⟨ext1 ++ ext2, ?_⟩
      have hu : (internT ar (SNode.node sym lo hi cs)).1 =
          (addNode (internList ar cs).1 (ANode.anode sym lo hi (internList ar cs).2)).1 := rfl
      rw [hu, h2, h1, List.append_assoc]

/-- Storing a forest only ever appends to the arena. -/
theorem internList_ext : ∀ (ar : Arena) (cs : List SNode), ∃ ext, (internList ar cs).1 = ar ++ ext
  | ar, [] => ⟨[], by simp [internList]⟩
  | ar, c :: cs => by
      obtain ⟨ext1, h1⟩ := internT_ext ar c
      obtain ⟨ext2, h2⟩ := internList_ext (internT ar c).1 cs
      refine ⟨ext1 ++ ext2, ?_⟩
      have hu : (internList ar (c :: cs)).1 = (internList (internT ar c).1 cs).1 := rfl
      rw [hu, h2, h1, List.append_assoc]
end
/-- Decoding is stable under extending the arena: anything readable
before an append is readable unchanged after it. -/
theorem decode_ext (ar ext : Arena) : ∀ fuel : Nat,
    (∀ (i : Nat) (v : SNode), decodeF ar fuel i = some v →
      decodeF (ar ++ ext) fuel i = some v) ∧
    (∀ (ks : List Nat) (cs : List SNode), decodeKids ar fuel ks = some cs →
      decodeKids (ar ++ ext) fuel ks = some cs) := by
  intro fuel
  induction fuel with
  | zero =>
      constructor
      · intro i v h
        simp [decodeF] at h
      · intro ks cs h
        cases ks with
        | nil =>
            simp only [decodeKids] at h ⊢
            exact h
        | cons k ks =>
            simp [decodeKids, decodeF] at h
  | succ fuel ih =>
      have hF : ∀ (i : Nat) (v : SNode), decodeF ar (fuel + 1) i = some v →
          decodeF (ar ++ ext) (fuel + 1) i = some v := by
        intro i v h
        simp only [decodeF] at h ⊢
        cases hget : ar[i]? with
        | none => simp [hget] at h
        | some nd =>
            have hlt : i < ar.length := (List.getElem?_eq_some.1 hget).1
            simp only [hget] at h
            simp only [List.getElem?_append_left hlt, hget]
            cases nd with
            | aleaf t => exact h
            | anode sym lo hi ks =>
                cases hks : decodeKids ar fuel ks with
                | none => simp [hks] at h
                | some cs =>
                    simp only [hks] at h
                    simp only [ih.2 ks cs hks]
                    exact h
      refine ⟨hF, ?_⟩
      intro ks
      induction ks with
      | nil =>
          intro cs h
          simp only [decodeKids] at h ⊢
          exact h
      | cons k ks ihks =>
          intro cs h
          simp only [decodeKids] at h ⊢
          cases h1 : decodeF ar (fuel + 1) k with
          | none => simp [h1] at h
          | some c =>
              simp only [h1] at h
              cases h2 : decodeKids ar (fuel + 1) ks with
              | none => simp [h2] at h
              | some cs2 =>
                  simp only [h2] at h
                  simp only [hF k c h1, ihks cs2 h2]
                  exact h

/-- Decoding is monotone in fuel. -/
theorem decode_mono (ar : Arena) : ∀ f2 : Nat,
    (∀ (f1 i : Nat) (v : SNode), f1 ≤ f2 → decodeF ar f1 i = some v →
      decodeF ar f2 i = some v) ∧
    (∀ (f1 : Nat) (ks : List Nat) (cs : List SNode), f1 ≤ f2 →
      decodeKids ar f1 ks = some cs → decodeKids ar f2 ks = some cs) := by
  intro f2
  induction f2 with
  | zero =>
      constructor
      · intro f1 i v hle h
        have hz : f1 = 0 := by omega
        subst hz
        simp [decodeF] at h
      · intro f1 ks cs hle h
        have hz : f1 = 0 := by omega
        subst hz
        exact h
  | succ f2 ih =>
      have hF : ∀ (f1 i : Nat) (v : SNode), f1 ≤ f2 + 1 → decodeF ar f1 i = some v →
          decodeF ar (f2 + 1) i = some v := by
        intro f1 i v hle h
        cases f1 with
        | zero => simp [decodeF] at h
        | succ f1 =>
            simp only [decodeF] at h ⊢
            cases hget : ar[i]? with
            | none => simp [hget] at h
            | some nd =>
                simp only [hget] at h ⊢
                cases nd with
                | aleaf t => exact h
                | anode sym lo hi ks =>
                    cases hks : decodeKids ar f1 ks with
                    | none => simp [hks] at h
                    | some cs =>
                        simp only [hks] at h
                        simp only [ih.2 f1 ks cs (by omega) hks]
                        exact h
      refine ⟨hF, ?_⟩
      intro f1 ks
      induction ks with
      | nil =>
          intro cs hle h
          cases f1 with
          | zero =>
              simp only [decodeKids] at h ⊢
              exact h
          | succ f1 =>
              simp only [decodeKids] at h ⊢
              exact h
      | cons k ks ihks =>
          intro cs hle h
          cases f1 with
          | zero => simp [decodeKids, decodeF] at h
          | succ f0 =>
              simp only [decodeKids] at h ⊢
              cases h1 : decodeF ar (f0 + 1) k with
              | none => simp [h1] at h
              | some c =>
                  simp only [h1] at h
                  cases h2 : decodeKids ar (f0 + 1) ks with
                  | none => simp [h2] at h
                  | some cs2 =>
                      simp only [h2] at h
                      simp only [hF (f0 + 1) k c hle h1, ihks cs2 hle h2]
                      exact h

/-- A decodable index lies within the arena. -/
theorem decodeF_lt (ar : Arena) (fuel i : Nat) (v : SNode)
    (h : decodeF ar fuel i = some v) : i < ar.length := by
  cases fuel with
  | zero => simp [decodeF] at h
  | succ fuel =>
      simp only [decodeF] at h
      cases hget : ar[i]? with
      | none => simp [hget] at h
      | some nd => exact (List.getElem?_eq_some.1 hget).1

/-- Inversion: only a stored leaf decodes to a leaf. -/
theorem decodeF_leaf_inv (ar : Arena) (fuel i : Nat) (t : Token)
    (h : decodeF ar fuel i = some (SNode.leaf t)) : ar[i]? = some (ANode.aleaf t) := by
  cases fuel with
  | zero => simp [decodeF] at h
  | succ fuel =>
      simp only [decodeF] at h
      cases hget : ar[i]? with
      | none => simp [hget] at h
      | some nd =>
          simp only [hget] at h
          cases nd with
          | aleaf u =>
              obtain h2 := Option.some.inj h
              obtain h3 := SNode.leaf.inj h2
              rw [← h3]
          | anode sym lo hi ks =>
              cases hks : decodeKids ar fuel ks with
              | none => simp [hks] at h
              | some cs => simp [hks] at h

/-- Inversion: only a stored interior node decodes to an interior node,
and its stored child indices decode to the children. -/
theorem decodeF_node_inv (ar : Arena) (fuel i : Nat) (sym lo hi : Nat) (cs : List SNode)
    (h : decodeF ar fuel i = some (SNode.node sym lo hi cs)) :
    ∃ ks f0, ar[i]? = some (ANode.anode sym lo hi ks) ∧ decodeKids ar f0 ks = some cs := by
  cases fuel with
  | zero => simp [decodeF] at h
  | succ fuel =>
      simp only [decodeF] at h
      cases hget : ar[i]? with
      | none => simp [hget] at h
      | some nd =>
          simp only [hget] at h
          cases nd with
          | aleaf u => simp at h
          | anode sym2 lo2 hi2 ks =>
              cases hks : decodeKids ar fuel ks with
              | none => simp [hks] at h
              | some cs2 =>
                  simp only [hks] at h
                  obtain h2 := Option.some.inj h
                  obtain ⟨hs, hl, hh, hc⟩ := SNode.node.inj h2
                  refine ⟨ks, fuel, ?_, ?_⟩
                  · rw [← hs, ← hl, ← hh]
                  · rw [← hc]
                    exact hks

/-- Interning one node preserves arena well-formedness when the node's
child references lie within the arena. -/
theorem addNode_wf (ar : Arena) (n : ANode) (hwf : ArenaWf ar)
    (hk : ∀ k ∈ kidsOf n, k < ar.length) : ArenaWf (addNode ar n).1 := by
  cases hf : findNode ar n with
  | some i => simpa only [addNode, hf] using hwf
  | none =>
      simp only [addNode, hf]
      intro i nd hget k hkmem
      by_cases hi : i < ar.length
      · rw [List.getElem?_append_left hi] at hget
        exact hwf i nd hget k hkmem
      · have hlen : i < ar.length + 1 := by
          have := (List.getElem?_eq_some.1 hget).1
          simpa using this
        have hieq : i = ar.length := by omega
        subst hieq
        have hn : (ar ++ [n])[ar.length]? = some n := by simp
        rw [hn] at hget
        obtain rfl := Option.some.inj hget
        have := hk k hkmem
        omega

/-- Decoding restricted to the original arena: a value readable through
the extended arena at an index of the original arena is already readable
there, provided the extended arena is well formed. -/
theorem decode_restrict (ar ext : Arena) (hwf : ArenaWf (ar ++ ext)) : ∀ fuel : Nat,
    (∀ (i : Nat) (v : SNode), i < ar.length → decodeF (ar ++ ext) fuel i = some v →
      decodeF ar fuel i = some v) ∧
    (∀ (ks : List Nat) (cs : List SNode), (∀ k ∈ ks, k < ar.length) →
      decodeKids (ar ++ ext) fuel ks = some cs → decodeKids ar fuel ks = some cs) := by
  intro fuel
  induction fuel with
  | zero =>
      constructor
      · intro i v _ h
        simp [decodeF] at h
      · intro ks cs _ h
        cases ks with
        | nil =>
            simp only [decodeKids] at h ⊢
            exact h
        | cons k ks => simp [decodeKids, decodeF] at h
  | succ fuel ih =>
      have hF : ∀ (i : Nat) (v : SNode), i < ar.length →
          decodeF (ar ++ ext) (fuel + 1) i = some v → decodeF ar (fuel + 1) i = some v := by
        intro i v hi h
        simp only [decodeF] at h ⊢
        cases hget : ar[i]? with
        | none =>
            simp only [List.getElem?_append_left hi, hget] at h
            exact Option.noConfusion h
        | some nd =>
            simp only [List.getElem?_append_left hi, hget] at h
            cases nd with
            | aleaf t => exact h
            | anode sym lo hi2 ks =>
                have hks_lt : ∀ k ∈ ks, k < ar.length := by
                  intro k hkk
                  have hx := hwf i (ANode.anode sym lo hi2 ks)
                    (by rw [List.getElem?_append_left hi, hget]) k (by simpa [kidsOf] using hkk)
                  omega
                cases hks : decodeKids (ar ++ ext) fuel ks with
                | none => simp [hks] at h
                | some cs2 =>
                    simp only [hks] at h
                    simp only [ih.2 ks cs2 hks_lt hks]
                    exact h
      refine ⟨hF, ?_⟩
      intro ks
      induction ks with
      | nil =>
          intro cs _ h
          simp only [decodeKids] at h ⊢
          exact h
      | cons k ks ihks =>
          intro cs hlt h
          simp only [decodeKids] at h ⊢
          cases h1 : decodeF (ar ++ ext) (fuel + 1) k with
          | none => simp [h1] at h
          | some c =>
              simp only [h1] at h
              cases h2 : decodeKids (ar ++ ext) (fuel + 1) ks with
              | none => simp [h2] at h
              | some cs2 =>
                  simp only [h2] at h
                  have hk1 := hF k c (hlt k (by simp)) h1
                  have hk2 := ihks cs2 (fun k hk => hlt k (by simp [hk])) h2
                  simp only [hk1, hk2]
                  exact h

/-- Canonical arenas decode injectively on child-index lists. -/
theorem decodeKids_inj (ar : Arena) (hinj : ArenaInj ar) :
    ∀ (ks ks2 : List Nat) (cs : List SNode) (f1 f2 : Nat),
      decodeKids ar f1 ks = some cs → decodeKids ar f2 ks2 = some cs → ks = ks2 := by
  intro ks
  induction ks with
  | nil =>
      intro ks2 cs f1 f2 h1 h2
      cases hks0 : ks2 with
      | nil => rfl
      | cons k2 ks2t =>
          subst hks0
          have hcs : cs = [] := by
            cases f1 with
            | zero =>
                simp only [decodeKids] at h1
                exact (Option.some.inj h1).symm
            | succ f0 =>
                simp only [decodeKids] at h1
                exact (Option.some.inj h1).symm
          subst hcs
          cases f2 with
          | zero => simp [decodeKids, decodeF] at h2
          | succ f0 =>
              simp only [decodeKids] at h2
              cases hx : decodeF ar (f0 + 1) k2 with
              | none => simp [hx] at h2
              | some c =>
                  simp only [hx] at h2
                  cases hy : decodeKids ar (f0 + 1) ks2t with
                  | none => simp [hy] at h2
                  | some cs2 => simp [hy] at h2
  | cons k ks ih =>
      intro ks2 cs f1 f2 h1 h2
      cases f1 with
      | zero => simp [decodeKids, decodeF] at h1
      | succ f0 =>
          simp only [decodeKids] at h1
          cases hx : decodeF ar (f0 + 1) k with
          | none => simp [hx] at h1
          | some c =>
              simp only [hx] at h1
              cases hy : decodeKids ar (f0 + 1) ks with
              | none => simp [hy] at h1
              | some cst =>
                  simp only [hy] at h1
                  obtain hcs := (Option.some.inj h1).symm
                  subst hcs
                  cases ks2 with
                  | nil =>
                      cases f2 with
                      | zero => simp [decodeKids, decodeF] at h2
                      | succ f3 => simp [decodeKids] at h2
                  | cons k2 ks2t =>
                      cases f2 with
                      | zero => simp [decodeKids, decodeF] at h2
                      | succ f3 =>
                          simp only [decodeKids] at h2
                          cases hx2 : decodeF ar (f3 + 1) k2 with
                          | none => simp [hx2] at h2
                          | some c2 =>
                              simp only [hx2] at h2
                              cases hy2 : decodeKids ar (f3 + 1) ks2t with
                              | none => simp [hy2] at h2
                              | some cst2 =>
                                  simp only [hy2] at h2
                                  obtain h3 := Option.some.inj h2
                                  obtain ⟨hc, hcst⟩ := List.cons.inj h3
                                  have hk : k = k2 :=
                                    hinj k k2 c ⟨f0 + 1, hx⟩ ⟨f3 + 1, by rw [hx2, hc]⟩
                                  have hks : ks = ks2t :=
                                    ih ks2t cst (f0 + 1) (f3 + 1) hy (by rw [hy2, hcst])
                                  rw [hk, hks]

/-- Interning one node preserves arena canonicity: the appended node
cannot decode to any value an existing index already decodes to. -/
theorem addNode_inj (ar : Arena) (n : ANode) (hwf : ArenaWf ar) (hinj : ArenaInj ar)
    (hk : ∀ k ∈ kidsOf n, k < ar.length) : ArenaInj (addNode ar n).1 := by
  cases hf : findNode ar n with
  | some i => simpa only [addNode, hf] using hinj
  | none =>
      simp only [addNode, hf]
      have hwf2 : ArenaWf (ar ++ [n]) := by
        have := addNode_wf ar n hwf hk
        simpa only [addNode, hf] using this
      have hrestrict : ∀ (m : Nat) (w : SNode), m < ar.length →
          decodes (ar ++ [n]) m w → decodes ar m w := by
        rintro m w hm ⟨fuel, hfu⟩
        exact ⟨fuel, (decode_restrict ar [n] hwf2 fuel).1 m w hm hfu⟩
      have hbound : ∀ (m : Nat) (w : SNode), decodes (ar ++ [n]) m w →
          m < ar.length + 1 := by
        rintro m w ⟨fuel, hfu⟩
        have := decodeF_lt (ar ++ [n]) fuel m w hfu
        simpa using this
      have hlastn : (ar ++ [n])[ar.length]? = some n := by simp
      have hlast : ∀ (w : SNode), decodes (ar ++ [n]) ar.length w →
          ∀ (m : Nat), m < ar.length → decodes (ar ++ [n]) m w → False := by
        rintro w ⟨fuel, hfu⟩ m hm hdm
        obtain ⟨fm, hfm⟩ := hrestrict m w hm hdm
        cases w with
        | leaf t =>
            have h1 := decodeF_leaf_inv (ar ++ [n]) fuel ar.length t hfu
            rw [hlastn] at h1
            obtain rfl := (Option.some.inj h1).symm
            have h2 := decodeF_leaf_inv ar fm m t hfm
            exact findNode_none ar (ANode.aleaf t) hf m h2
        | node sym lo hi cs =>
            obtain ⟨ks, f0, hget1, hkids1⟩ :=
              decodeF_node_inv (ar ++ [n]) fuel ar.length sym lo hi cs hfu
            rw [hlastn] at hget1
            obtain hn := (Option.some.inj hget1).symm
            obtain ⟨ks2, f2, hget2, hkids2⟩ := decodeF_node_inv ar fm m sym lo hi cs hfm
            have hks_lt : ∀ k ∈ ks, k < ar.length := by
              intro k hkk
              have := hk k (by rw [← hn]; simpa [kidsOf] using hkk)
              exact this
            have hkids1r : decodeKids ar f0 ks = some cs :=
              (decode_restrict ar [n] hwf2 f0).2 ks cs hks_lt hkids1
            have hkseq : ks2 = ks := decodeKids_inj ar hinj ks2 ks cs f2 f0 hkids2 hkids1r
            rw [hkseq] at hget2
            rw [hn] at hget2
            exact findNode_none ar n hf m hget2
      intro i j v hdi hdj
      by_cases hi : i < ar.length
      · by_cases hj : j < ar.length
        · exact hinj i j v (hrestrict i v hi hdi) (hrestrict j v hj hdj)
        · have hj2 : j = ar.length := by
            have := hbound j v hdj
            omega
          subst hj2
          exact (hlast v hdj i hi hdi).elim
      · have hi2 : i = ar.length := by
          have := hbound i v hdi
          omega
        subst hi2
        by_cases hj : j < ar.length
        · exact (hlast v hdi j hj hdj).elim
        · have hj2 : j = ar.length := by
            have := hbound j v hdj
            omega
          omega

/-- Unfolding: interning a leaf. -/
theorem internT_leaf_eq (ar : Arena) (t : Token) :
    internT ar (SNode.leaf t) = addNode ar (ANode.aleaf t) := rfl

/-- Unfolding: interning an interior node interns the children first. -/
theorem internT_node_eq (ar : Arena) (sym lo hi : Nat) (cs : List SNode) :
    internT ar (SNode.node sym lo hi cs) =
      addNode (internList ar cs).1 (ANode.anode sym lo hi (internList ar cs).2) := rfl

/-- Unfolding: interning an empty forest. -/
theorem internList_nil_eq (ar : Arena) : internList ar [] = (ar, []) := rfl

/-- Unfolding: interning a forest head first. -/
theorem internList_cons_eq (ar : Arena) (c : SNode) (cs : List SNode) :
    internList ar (c :: cs) =
      ((internList (internT ar c).1 cs).1,
        (internT ar c).2 :: (internList (internT ar c).1 cs).2) := rfl

mutual
/-- Interning a tree preserves arena well-formedness and canonicity, and
returns an in-range index. -/
theorem internT_good : ∀ (ar : Arena) (t : SNode), GoodArena ar →
    GoodArena (internT ar t).1 ∧ (internT ar t).2 < (internT ar t).1.length
  | ar, SNode.leaf t => fun hg => by
      rw [internT_leaf_eq]
      exact ⟨⟨addNode_wf ar _ hg.1 (by simp [kidsOf]),
        addNode_inj ar _ hg.1 hg.2 (by simp [kidsOf])⟩, addNode_lt ar _⟩
  | ar, SNode.node sym lo hi cs => fun hg => by
      obtain ⟨hg1, hks⟩ := internList_good ar cs hg
      have hkids : ∀ k ∈ kidsOf (ANode.anode sym lo hi (internList ar cs).2),
          k < (internList ar cs).1.length := by
        simpa [kidsOf] using hks
      rw [internT_node_eq]
      exact ⟨⟨addNode_wf _ _ hg1.1 hkids, addNode_inj _ _ hg1.1 hg1.2 hkids⟩,
        addNode_lt _ _⟩

/-- Interning a forest preserves arena well-formedness and canonicity,
and returns in-range indices. -/
theorem internList_good : ∀ (ar : Arena) (cs : List SNode), GoodArena ar →
    GoodArena (internList ar cs).1 ∧
      ∀ k ∈ (internList ar cs).2, k < (internList ar cs).1.length
  | ar, [] => fun hg => by
      rw [internList_nil_eq]
      exact ⟨hg, by simp⟩
  | ar, c :: cs => fun hg => by
      obtain ⟨hg1, hlt1⟩ := internT_good ar c hg
      obtain ⟨hg2, hlt2⟩ := internList_good (internT ar c).1 cs hg1
      obtain ⟨ext, hext⟩ := internList_ext (internT ar c).1 cs
      rw [internList_cons_eq]
      refine ⟨hg2, ?_⟩
      intro k hk
      rcases List.mem_cons.1 hk with heq | htail
      · subst heq
        rw [hext, List.length_append]
        omega
      · exact hlt2 k htail
end

mutual
/-- The interned index decodes back to the interned tree. -/
theorem internT_decodes : ∀ (ar : Arena) (t : SNode),
    decodes (internT ar t).1 (internT ar t).2 t
  | ar, SNode.leaf t => by
      refine ⟨1, ?_⟩
      rw [internT_leaf_eq]
      simp only [decodeF, addNode_get]
  | ar, SNode.node sym lo hi cs => by
      obtain ⟨f, hf⟩ := internList_decodes ar cs
      obtain ⟨ext, hext⟩ :=
        addNode_ext (internList ar cs).1 (ANode.anode sym lo hi (internList ar cs).2)
      refine ⟨f + 1, ?_⟩
      rw [internT_node_eq]
      simp only [decodeF, addNode_get]
      have hkids2 : decodeKids
          (addNode (internList ar cs).1 (ANode.anode sym lo hi (internList ar cs).2)).1 f
          (internList ar cs).2 = some cs := by
        rw [hext]
        exact (decode_ext _ ext f).2 _ cs hf
      simp only [hkids2]

/-- The interned indices of a forest decode back to the forest. -/
theorem internList_decodes : ∀ (ar : Arena) (cs : List SNode),
    ∃ f, decodeKids (internList ar cs).1 f (internList ar cs).2 = some cs
  | ar, [] => ⟨1, by rw [internList_nil_eq]; simp [decodeKids]⟩
  | ar, c :: cs => by
      obtain ⟨f1, h1⟩ := internT_decodes ar c
      obtain ⟨f2, h2⟩ := internList_decodes (internT ar c).1 cs
      obtain ⟨ext, hext⟩ := internList_ext (internT ar c).1 cs
      refine ⟨f1 + f2, ?_⟩
      rw [internList_cons_eq]
      simp only [decodeKids]
      have hk1 : decodeF (internList (internT ar c).1 cs).1 (f1 + f2) (internT ar c).2 =
          some c := by
        have hx2 : decodeF (internList (internT ar c).1 cs).1 f1 (internT ar c).2 = some c := by
          rw [hext]
          exact (decode_ext _ ext f1).1 _ c h1
        exact (decode_mono _ (f1 + f2)).1 f1 _ c (by omega) hx2
      have hk2 : decodeKids (internList (internT ar c).1 cs).1 (f1 + f2)
          (internList (internT ar c).1 cs).2 = some cs :=
        (decode_mono _ (f1 + f2)).2 f2 _ cs (by omega) h2
      simp only [hk1, hk2]
end

/-- Reachability is stable under extending the arena. -/
theorem reach_ext : ∀ (fuel : Nat) (ar ext : Arena) (r i : Nat),
    i ∈ reachIdx ar fuel r → i ∈ reachIdx (ar ++ ext) fuel r := by
  intro fuel
  induction fuel with
  | zero => intro ar ext r i h; simp [reachIdx] at h
  | succ fuel ih =>
      intro ar ext r i h
      simp only [reachIdx] at h ⊢
      rcases List.mem_cons.1 h with heq | htail
      · exact List.mem_cons.2 (Or.inl heq)
      · refine List.mem_cons.2 (Or.inr ?_)
        cases hget : ar[r]? with
        | none =>
            simp only [hget] at htail
            simp at htail
        | some nd =>
            have hlt : r < ar.length := (List.getElem?_eq_some.1 hget).1
            simp only [hget] at htail
            simp only [List.getElem?_append_left hlt, hget]
            cases nd with
            | aleaf t => simp at htail
            | anode sym lo hi ks =>
                obtain ⟨k, hkmem, hkreach⟩ := List.mem_flatMap.1 htail
                exact List.mem_flatMap.2 ⟨k, hkmem, ih ar ext k i hkreach⟩

/-- Reachability is monotone in fuel. -/
theorem reach_mono : ∀ (f1 f2 : Nat) (ar : Arena) (r i : Nat), f1 ≤ f2 →
    i ∈ reachIdx ar f1 r → i ∈ reachIdx ar f2 r := by
  intro f1
  induction f1 with
  | zero => intro f2 ar r i _ h; simp [reachIdx] at h
  | succ f1 ih =>
      intro f2 ar r i hle h
      have hf2 : f2 = (f2 - 1) + 1 := by omega
      rw [hf2]
      simp only [reachIdx] at h ⊢
      rcases List.mem_cons.1 h with heq | htail
      · exact List.mem_cons.2 (Or.inl heq)
      · refine List.mem_cons.2 (Or.inr ?_)
        cases hget : ar[r]? with
        | none =>
            simp only [hget] at htail
            simp at htail
        | some nd =>
            simp only [hget] at htail ⊢
            cases nd with
            | aleaf t => simp at htail
            | anode sym lo hi ks =>
                obtain ⟨k, hkmem, hkreach⟩ := List.mem_flatMap.1 htail
                exact List.mem_flatMap.2 ⟨k, hkmem, ih (f2 - 1) ar k i (by omega) hkreach⟩

mutual
/-- Every subtree of an interned tree is referenced (reachable from the
interned root) at an index that decodes to it. -/
theorem internT_reaches : ∀ (ar : Arena) (t v : SNode), subB v t = true →
    ∃ j, reaches (internT ar t).1 (internT ar t).2 j ∧ decodes (internT ar t).1 j v
  | ar, SNode.leaf t, v => fun hsub => by
      simp only [subB, beq_iff_eq] at hsub
      subst hsub
      refine ⟨(internT ar (SNode.leaf t)).2, ⟨1, ?_⟩, internT_decodes ar (SNode.leaf t)⟩
      simp [reachIdx]
  | ar, SNode.node sym lo hi cs, v => fun hsub => by
      simp only [subB, Bool.or_eq_true, beq_iff_eq] at hsub
      rcases hsub with heq | hsub
      · subst heq
        refine ⟨(internT ar (SNode.node sym lo hi cs)).2, ⟨1, ?_⟩,
          internT_decodes ar (SNode.node sym lo hi cs)⟩
        simp [reachIdx]
      · obtain ⟨j, m, hmks, hreach, hdec⟩ := internList_reaches ar cs v hsub
        obtain ⟨ext, hext⟩ :=
          addNode_ext (internList ar cs).1 (ANode.anode sym lo hi (internList ar cs).2)
        obtain ⟨fr, hfr⟩ := hreach
        obtain ⟨fd, hfd⟩ := hdec
        refine ⟨j, ⟨fr + 1, ?_⟩, ⟨fd, ?_⟩⟩
        · rw [internT_node_eq]
          simp only [reachIdx]
          refine List.mem_cons.2 (Or.inr ?_)
          simp only [addNode_get]
          refine List.mem_flatMap.2 ⟨m, hmks, ?_⟩
          rw [hext]
          exact reach_ext fr _ ext m j hfr
        · rw [internT_node_eq, hext]
          exact (decode_ext _ ext fd).1 j v hfd

/-- Every subtree of an interned forest is referenced from one of the
forest's interned roots at an index that decodes to it. -/
theorem internList_reaches : ∀ (ar : Arena) (cs : List SNode) (v : SNode),
    subAny v cs = true →
    ∃ j m, m ∈ (internList ar cs).2 ∧ reaches (internList ar cs).1 m j ∧
      decodes (internList ar cs).1 j v
  | ar, [], v => fun hsub => by simp [subAny] at hsub
  | ar, c :: cs, v => fun hsub => by
      simp only [subAny, Bool.or_eq_true] at hsub
      obtain ⟨ext, hext⟩ := internList_ext (internT ar c).1 cs
      rcases hsub with h | h
      · obtain ⟨j, hreach, hdec⟩ := internT_reaches ar c v h
        obtain ⟨fr, hfr⟩ := hreach
        obtain ⟨fd, hfd⟩ := hdec
        refine ⟨j, (internT ar c).2, ?_, ⟨fr, ?_⟩, ⟨fd, ?_⟩⟩
        · rw [internList_cons_eq]
          simp
        · rw [internList_cons_eq]
          show j ∈ reachIdx (internList (internT ar c).1 cs).1 fr (internT ar c).2
          rw [hext]
          exact reach_ext fr _ ext _ j hfr
        · rw [internList_cons_eq]
          show decodeF (internList (internT ar c).1 cs).1 fd j = some v
          rw [hext]
          exact (decode_ext _ ext fd).1 j v hfd
      · obtain ⟨j, m, hm, hreach, hdec⟩ := internList_reaches (internT ar c).1 cs v h
        refine ⟨j, m, ?_, ?_, ?_⟩
        · rw [internList_cons_eq]
          exact List.mem_cons.2 (Or.inr hm)
        · rw [internList_cons_eq]
          exact hreach
        · rw [internList_cons_eq]
          exact hdec
end

/-- The empty arena is well formed and canonical. -/
theorem goodArena_nil : GoodArena ([] : Arena) := by
  constructor
  · intro i nd h k hk
    simp at h
  · intro i j v hdi hdj
    obtain ⟨f, hf⟩ := hdi
    have := decodeF_lt [] f i v hf
    simp at this

/-- The arena built by a full parse is well formed and canonical. -/
theorem parseA_good (g : GrammarTable) (text : List Char) :
    GoodArena (parseA g text).nodes :=
  (internT_good [] (parse g text).root goodArena_nil).1

/-- Frame and sharing for the arena-held incremental re-parse: every
node slot of the old version is unchanged in the new version's arena,
and any old subtree whose value still occurs in the new tree is
referenced by the new tree at its old index. -/
theorem reparseA_frame_sharing (g : GrammarTable) (text : List Char) (e : Edit)
    (newText : List Char) (newA : ATree)
    (hok : reparseA g (parseA g text) e newText = Except.ok newA) :
    (∀ i : Nat, i < (parseA g text).nodes.length →
      newA.nodes[i]? = (parseA g text).nodes[i]?) ∧
    (∀ (i : Nat) (v : SNode), decodes (parseA g text).nodes i v →
      subB v newA.tree.root = true → reaches newA.nodes newA.root i) := by
  have hGood : GoodArena (parseA g text).nodes := parseA_good g text
  cases hrep : reparse g (parseA g text).tree e newText with
  | error err =>
      exfalso
      simp only [reparseA, hrep] at hok
      exact Except.noConfusion hok
  | ok t2 =>
      simp only [reparseA, hrep] at hok
      obtain hnew := (Except.ok.inj hok).symm
      subst hnew
      obtain ⟨ext, hext⟩ := internT_ext (parseA g text).nodes t2.root
      constructor
      · intro i hi
        show (internT (parseA g text).nodes t2.root).1[i]? = _
        rw [hext]
        exact List.getElem?_append_left hi
      · intro i v hdec hsub
        have hg2 := internT_good (parseA g text).nodes t2.root hGood
        obtain ⟨j, hreach, hdecj⟩ := internT_reaches (parseA g text).nodes t2.root v hsub
        have hdec2 : decodes (internT (parseA g text).nodes t2.root).1 i v := by
          obtain ⟨f, hf⟩ := hdec
          refine ⟨f, ?_⟩
          rw [hext]
          exact (decode_ext _ ext f).1 i v hf
        have hij : j = i := hg2.1.2 j i v hdecj hdec2
        rw [← hij]
        exact hreach

/-! ## The claims -/

/-- C1: The artifact declares exactly one function, `tree_sitter_tui`,
which takes no arguments and returns a pointer to an opaque
(forward-declared, never defined) `TSLanguage` structure; the header
contains no parsing logic, no grammar rules, no state machine, and no
data structures beyond that opaque forward declaration. -/
theorem claim_C1_header_single_opaque_decl :
    funDeclsOf tui_h.decls = [CDecl.funDecl true "TSLanguage" 1 "tree_sitter_tui" []] ∧
    CDecl.typedefOpaque "TSLanguage" ∈ tui_h.decls ∧
    tui_h.decls.all (fun d => !definesStruct "TSLanguage" d) = true ∧
    tui_h.decls.all (fun d => !carriesLogicOrData d) = true := by
  refine ⟨rfl, ?_, rfl, rfl⟩
  simp [tui_h]

/-- C2: For every grammar table and every finite input text, `parse`
terminates (it is a total function of this development) and returns a
tree whose root node's byte range equals `[0, len(text))`. -/
theorem claim_C2_parse_total_root_covers_input :
    ∀ (g : GrammarTable) (text : List Char),
      nstart (parse g text).root = 0 ∧ nstop (parse g text).root = text.length :=
  fun g text => parse_root_range g text

/-- C3: In every tree produced by the engine — by `parse`, or by
`reparse` after a valid edit — every node's byte range equals the union
of its children's byte ranges (the token span for a leaf) and its
children are ordered, non-overlapping, and contiguous within its
range. -/
theorem claim_C3_tree_invariant :
    (∀ (g : GrammarTable) (text : List Char) (v : SNode),
      subB v (parse g text).root = true → localWf v = true) ∧
    (∀ (g : GrammarTable) (text : List Char) (e : Edit) (repl : List Char) (t2 : Tree),
      validEdit e text.length →
      reparse g (parse g text) e (applyEdit text e repl) = Except.ok t2 →
      ∀ v : SNode, subB v t2.root = true → localWf v = true) := by
  constructor
  · intro g text v hsub
    exact wfB_sub_localWf _ (parse_wf g text) v hsub
  · intro g text e repl t2 hv hok
    rw [reparse_parse g text e repl hv] at hok
    obtain h2 := Except.ok.inj hok
    intro v hsub
    rw [← h2] at hsub
    exact wfB_sub_localWf _ (parse_wf g _) v hsub

/-- Witness for C3 at the concrete grammar and texts. -/
theorem claim_C3_tree_invariant_witness :
    localWf (parse demoG ['a', 'a']).root = true ∧
    localWf (parse demoG ['a', 'a', 'a']).root = true :=
  ⟨claim_C3_tree_invariant.1 demoG ['a', 'a'] (parse demoG ['a', 'a']).root (by decide),
   claim_C3_tree_invariant.2 demoG ['a', 'a'] ⟨1, 1, 2⟩ ['a'] (parse demoG ['a', 'a', 'a'])
     (by decide) (by decide) (parse demoG ['a', 'a', 'a']).root (by decide)⟩

/-- C4: For every text and every edit confined to the interior of a
single leaf token, `reparse` on the old tree and a full `parse` of the
post-edit text yield structurally identical trees. -/
theorem claim_C4_interior_edit_reparse_eq_parse
    (g : GrammarTable) (text : List Char) (e : Edit) (repl : List Char) (tok : Token)
    (htok : tok ∈ lexAll g text)
    (_hin1 : tok.start < e.start) (hin2 : e.oldEnd < tok.stop)
    (hord : e.start ≤ e.oldEnd) (hnew : e.newEnd = e.start + repl.length) :
    reparse g (parse g text) e (applyEdit text e repl) =
      Except.ok (parse g (applyEdit text e repl)) := by
  have hstop : tok.stop ≤ text.length :=
    tokChain_mem_stop (lexAll g text) 0 text.length tok
      (lexFrom_chain g text text.length 0 (by omega) (by omega)) htok
  exact reparse_parse g text e repl ⟨hord, by omega, by omega⟩

/-- Witness for C4: inserting a byte inside the leaf token spanning
bytes 0–2 of "aa". -/
theorem claim_C4_interior_edit_witness :
    reparse demoG (parse demoG ['a', 'a']) ⟨1, 1, 2⟩ (applyEdit ['a', 'a'] ⟨1, 1, 2⟩ ['a']) =
      Except.ok (parse demoG (applyEdit ['a', 'a'] ⟨1, 1, 2⟩ ['a'])) :=
  claim_C4_interior_edit_reparse_eq_parse demoG ['a', 'a'] ⟨1, 1, 2⟩ ['a']
    ⟨10, 0, 2, 3, false⟩ (by decide) (by decide) (by decide) (by decide) (by decide)

/-- C5: For every text, the no-op edit `Edit{0,0,0}` applied via
`reparse` to `parse(text)`, with the same text, yields a tree
structurally equal to `parse(text)`. -/
theorem claim_C5_noop_edit_idempotent (g : GrammarTable) (text : List Char) :
    reparse g (parse g text) ⟨0, 0, 0⟩ text = Except.ok (parse g text) := by
  have hval : validEdit ⟨0, 0, 0⟩ text.length :=
    ⟨Nat.le_refl 0, Nat.zero_le _, Nat.le_refl 0⟩
  have h := reparse_parse g text ⟨0, 0, 0⟩ [] hval
  have ha : applyEdit text ⟨0, 0, 0⟩ [] = text := by
    simp [applyEdit]
  rw [ha] at h
  exact h

/-- C6: `reparse` never mutates the old tree version — on the arena
representation every node slot of the old version reads back unchanged
from the new version's arena — and the new tree shares by reference
(same arena index) every subtree of the old tree whose value still
occurs in the new tree. -/
theorem claim_C6_reparse_no_mutation_sharing (g : GrammarTable) (text : List Char)
    (e : Edit) (newText : List Char) (newA : ATree)
    (hok : reparseA g (parseA g text) e newText = Except.ok newA) :
    (∀ i : Nat, i < (parseA g text).nodes.length →
      newA.nodes[i]? = (parseA g text).nodes[i]?) ∧
    (∀ (i : Nat) (v : SNode), decodes (parseA g text).nodes i v →
      subB v newA.tree.root = true → reaches newA.nodes newA.root i) :=
  reparseA_frame_sharing g text e newText newA hok

/-- Witness for C6 at the concrete re-parse scenario. -/
theorem claim_C6_no_mutation_witness :
    (∀ i : Nat, i < (parseA demoG ['a', 'a']).nodes.length →
      demoNewA.nodes[i]? = (parseA demoG ['a', 'a']).nodes[i]?) ∧
    (∀ (i : Nat) (v : SNode), decodes (parseA demoG ['a', 'a']).nodes i v →
      subB v demoNewA.tree.root = true → reaches demoNewA.nodes demoNewA.root i) :=
  claim_C6_reparse_no_mutation_sharing demoG ['a', 'a'] demoEdit demoNewText demoNewA
    (by decide)

/-- C7: If the edit range lies outside the current text bounds, the
operation fails with `InvalidEdit` before any tree is built, and the old
tree remains the controller's valid, usable tree. -/
theorem claim_C7_invalid_edit_rejected (g : GrammarTable) (old : Tree) (e : Edit)
    (newText : List Char) (hbad : old.len < e.oldEnd) :
    reparse g old e newText = Except.error ParseError.invalidEdit ∧
    reparseOr g old e newText = old := by
  have hnv : ¬ validEdit e old.len := by
    rintro ⟨h1, h2, h3⟩
    omega
  constructor
  · unfold reparse
    rw [if_neg hnv]
  · unfold reparseOr reparse
    rw [if_neg hnv]

/-- Witness for C7: an edit ending past the two-byte text. -/
theorem claim_C7_invalid_edit_witness :
    reparse demoG (parse demoG ['a', 'a']) ⟨0, 5, 5⟩ ['a'] =
      Except.error ParseError.invalidEdit ∧
    reparseOr demoG (parse demoG ['a', 'a']) ⟨0, 5, 5⟩ ['a'] = parse demoG ['a', 'a'] :=
  claim_C7_invalid_edit_rejected demoG (parse demoG ['a', 'a']) ⟨0, 5, 5⟩ ['a'] (by decide)

/-- C8: At a cursor position where the scan finds no acceptance (no
transition matches and no valid default exists), `nextToken` emits an
`ERROR` token of length exactly 1 starting at the cursor, so the cursor
advances exactly one byte; and the lexer always makes forward
progress. -/
theorem claim_C8_lexer_error_progress (g : GrammarTable) (text : List Char) (p : Nat)
    (_hp : p < text.length)
    (hnm : (scanAux g text (text.length - p) p g.lexStart none).1 = none) :
    (nextToken g text p).isError = true ∧ (nextToken g text p).sym = g.errorSym ∧
    (nextToken g text p).start = p ∧ (nextToken g text p).stop = p + 1 ∧
    (∀ q : Nat, q < (nextToken g text q).stop) := by
  cases hscan : scanAux g text (text.length - p) p g.lexStart none with
  | mk b q =>
      rw [hscan] at hnm
      simp only at hnm
      subst hnm
      refine ⟨?_, ?_, ?_, ?_, ?_⟩
      · simp [nextToken, hscan]
      · simp [nextToken, hscan]
      · simp [nextToken, hscan]
      · simp [nextToken, hscan]
      · intro q2
        exact nextToken_progress g text q2

/-- Witness for C8: no lexical transition matches byte 'b'. -/
theorem claim_C8_lexer_error_witness :
    (nextToken demoG ['b'] 0).isError = true ∧ (nextToken demoG ['b'] 0).sym = demoG.errorSym ∧
    (nextToken demoG ['b'] 0).start = 0 ∧ (nextToken demoG ['b'] 0).stop = 0 + 1 ∧
    (∀ q : Nat, q < (nextToken demoG ['b'] q).stop) :=
  claim_C8_lexer_error_progress demoG ['b'] 0 (by decide) (by decide)

/-- C9: The binding never hands out a mutable handle: the only
declaration, `tree_sitter_tui`, returns a const-qualified pointer to the
opaque `TSLanguage`, so no declaration of the header exposes a
non-const pointer through which the grammar table could be mutated. -/
theorem claim_C9_const_opaque_handle :
    tui_h.decls.all (fun d => !exposesMutableHandle d) = true ∧
    CDecl.funDecl true "TSLanguage" 1 "tree_sitter_tui" [] ∈ tui_h.decls := by
  refine ⟨rfl, ?_⟩
  simp [tui_h]

/-- C10: Including the header any number of times in one translation
unit is equivalent to including it once: the include guard makes
repeated inclusion idempotent, and the `TSLanguage` typedef and the
`tree_sitter_tui` declaration are each introduced exactly once. -/
theorem claim_C10_include_guard_idempotent : ∀ n : Nat,
    expandN (n + 1) [] tui_h = expandN 1 [] tui_h ∧
    ((expandN (n + 1) [] tui_h).2.filter
      (fun d => d == CDecl.typedefOpaque "TSLanguage")).length = 1 ∧
    ((expandN (n + 1) [] tui_h).2.filter
      (fun d => d == CDecl.funDecl true "TSLanguage" 1 "tree_sitter_tui" [])).length = 1 := by
  intro n
  have h1 : expandOnce [] tui_h = ([tui_h.guard], tui_h.decls) := by
    simp [expandOnce]
  have hstep : ∀ m : Nat, expandN (m + 1) [] tui_h = ([tui_h.guard], tui_h.decls) := by
    intro m
    simp only [expandN, h1]
    rw [expandN_guarded tui_h [tui_h.guard] (by simp) m]
    simp
  rw [hstep n, hstep 0]
  exact ⟨rfl, by decide, by decide⟩
